import Mathlib

/-!
Verification of the `import_tracker` dependency-discovery engine.

This file shallowly embeds the Python source of the repository
(`import_tracker/import_tracker.py`, `import_tracker/setup_tools.py`,
`import_tracker/lazy_import_errors.py`) into Lean and proves/refutes the
frozen claims about it.

Modelling conventions:
* Python strings are `List Char` (`PStr`); `pstr` converts a Lean literal.
* Python dicts are insertion-ordered association lists (`Dict α`): lookup
  finds the first matching key, assignment replaces the first matching
  key's value in place and appends when the key is absent — exactly the
  observable behaviour of a Python `dict` (which cannot hold duplicate
  keys; the operations below preserve key uniqueness when it holds).
* Python sets of strings/modules are duplicate-free lists built with
  `setAdd`; iteration order of a set is modelled as list order.
* Unbounded `while` loops are modelled with an explicit fuel parameter
  whose value is a provably sufficient bound (noted at the definition).
-/

/-- Python strings, embedded as their character lists. -/
abbrev PStr := List Char

/-- Turn a Lean string literal into an embedded Python string. -/
def pstr (s : String) : PStr := s.data

/-- `s.split(c)` for a single-character separator, with Python semantics:
`"".split(".") = [""]`, separators at the ends produce empty parts. -/
def pySplit (c : Char) : PStr → List PStr
  | [] => [[]]
  | x :: rest =>
    if x = c then [] :: pySplit c rest
    else
      match pySplit c rest with
      | [] => [[x]]
      | p :: ps => (x :: p) :: ps

/-- `c.join(parts)` (Python `str.join` with a one-character separator). -/
def pyJoin (c : Char) : List PStr → PStr
  | [] => []
  | [p] => p
  | p :: ps => p ++ c :: pyJoin c ps

/-- `s.partition(c)[0]`: everything before the first occurrence of `c`
(the whole string if `c` does not occur). -/
def pyPartFst (c : Char) (s : PStr) : PStr := s.takeWhile (fun x => x ≠ c)

/-- `s.replace(a, b)` for single characters. -/
def pyReplace (a b : Char) (s : PStr) : PStr := s.map (fun c => if c = a then b else c)

/-- `s.lower()` (ASCII-adequate). -/
def pyLower (s : PStr) : PStr := s.map Char.toLower

/-- Python whitespace test used by `str.strip()`. -/
def pyIsSpace (c : Char) : Bool := c = ' ' ∨ c = '\t' ∨ c = '\n' ∨ c = '\r'

/-- `s.strip()`. -/
def pyStrip (s : PStr) : PStr := (s.dropWhile pyIsSpace).reverse.dropWhile pyIsSpace |>.reverse

/-- `s.isnumeric()` restricted to ASCII digits (the only case arising in
`dis` output). -/
def pyIsNumeric (s : PStr) : Bool := ¬ s.isEmpty ∧ s.all Char.isDigit

/-- `int(s)` for a digit string. -/
def pyToNat (s : PStr) : Nat := s.foldl (fun n c => n * 10 + (c.toNat - 48)) 0

/-- Python dicts: insertion-ordered association lists. -/
abbrev Dict (α : Type) := List (PStr × α)

/-- `d.get(k)`: value of the first entry with key `k`. -/
def dget? {α : Type} : Dict α → PStr → Option α
  | [], _ => none
  | (k', v) :: rest, k => if k' = k then some v else dget? rest k

/-- `d.get(k, v₀)`. -/
def dgetD {α : Type} (d : Dict α) (k : PStr) (v₀ : α) : α := (dget? d k).getD v₀

/-- `k in d`. -/
def dmem {α : Type} (d : Dict α) (k : PStr) : Bool := (dget? d k).isSome

/-- `d[k] = v`: replace the value of the first entry with key `k` in
place, appending a new entry when the key is absent. -/
def dset {α : Type} : Dict α → PStr → α → Dict α
  | [], k, v => [(k, v)]
  | (k', v') :: rest, k, v => if k' = k then (k', v) :: rest else (k', v') :: dset rest k v

/-- `d.setdefault(k, v)` (only the dict effect; the returned reference is
modelled by subsequent lookups). -/
def dsetdefault {α : Type} (d : Dict α) (k : PStr) (v : α) : Dict α :=
  match dget? d k with
  | some _ => d
  | none => d ++ [(k, v)]

/-- `list(d.keys())`. -/
def dkeys {α : Type} (d : Dict α) : List PStr := d.map Prod.fst

/-- `s.add(x)` on a Python set modelled as a duplicate-free list. -/
def setAdd {α : Type} [DecidableEq α] (s : List α) (x : α) : List α :=
  if x ∈ s then s else s ++ [x]

/-- Append `x` to the list stored under `k` (Python
`d.setdefault(k, []).append(x)`). -/
def dappend {α : Type} (d : Dict (List α)) (k : PStr) (x : α) : Dict (List α) :=
  dset d k (dgetD d k [] ++ [x])

section DictLemmas

variable {α : Type}

theorem dget?_dset_self (d : Dict α) (k : PStr) (v : α) : dget? (dset d k v) k = some v := by
  induction d with
  | nil => simp [dset, dget?]
  | cons hd tl ih =>
    obtain ⟨k', v'⟩ := hd
    by_cases h : k' = k <;> simp [dset, dget?, h, ih]

theorem dget?_dset_ne (d : Dict α) (k k₀ : PStr) (v : α) (h : k₀ ≠ k) :
    dget? (dset d k v) k₀ = dget? d k₀ := by
  induction d with
  | nil =>
    have h' : ¬ (k = k₀) := fun hh => h hh.symm
    simp [dset, dget?, h']
  | cons hd tl ih =>
    obtain ⟨k', v'⟩ := hd
    by_cases h1 : k' = k
    · subst h1
      have h' : ¬ (k' = k₀) := fun hh => h hh.symm
      simp [dset, dget?, h']
    · by_cases h2 : k' = k₀
      · subst h2
        have h' : ¬ (k' = k) := h1
        simp [dset, dget?, h']
      · simp [dset, dget?, h1, h2, ih]

theorem dset_eq_of_dget? (d : Dict α) (k : PStr) (v : α) (h : dget? d k = some v) :
    dset d k v = d := by
  induction d with
  | nil => simp [dget?] at h
  | cons hd tl ih =>
    obtain ⟨k', v'⟩ := hd
    by_cases h1 : k' = k
    · subst h1
      simp [dget?] at h
      simp [dset, h]
    · simp [dget?, h1] at h
      simp [dset, h1, ih h]

theorem dkeys_dset_of_mem (d : Dict α) (k : PStr) (v : α) (h : dmem d k = true) :
    dkeys (dset d k v) = dkeys d := by
  induction d with
  | nil => simp [dmem, dget?] at h
  | cons hd tl ih =>
    obtain ⟨k', v'⟩ := hd
    by_cases h1 : k' = k
    · simp [dset, h1, dkeys]
    · simp [dmem, dget?, h1] at h
      simp [dset, h1, dkeys] at ih ⊢
      exact ih h

theorem dmem_dset (d : Dict α) (k k₀ : PStr) (v : α) :
    dmem (dset d k v) k₀ = (dmem d k₀ ∨ k₀ = k) := by
  by_cases h : k₀ = k
  · subst h
    simp [dmem, dget?_dset_self]
  · simp [dmem, dget?_dset_ne d k k₀ v h, h]

/-- Membership of a key in `dkeys` is the same as a successful lookup. -/
theorem dmem_iff_mem_dkeys (d : Dict α) (k : PStr) : dmem d k = true ↔ k ∈ dkeys d := by
  induction d with
  | nil => simp [dmem, dget?, dkeys]
  | cons hd tl ih =>
    obtain ⟨k', v'⟩ := hd
    by_cases h : k' = k
    · subst h
      constructor
      · intro _
        exact List.mem_cons_self k' (dkeys tl)
      · intro _
        simp [dmem, dget?]
    · have h' : ¬ (k = k') := fun hh => h hh.symm
      simp only [dmem, dget?, h, if_false, dkeys, List.map_cons, List.mem_cons] at ih ⊢
      simp only [h', false_or]
      exact ih

end DictLemmas

section SplitJoinLemmas

theorem pySplit_cons_sep (c : Char) (rest : PStr) :
    pySplit c (c :: rest) = [] :: pySplit c rest := by
  simp [pySplit]

theorem pySplit_cons_shape (c x : Char) (rest : PStr) (h : x ≠ c) :
    ∃ p ps, pySplit c rest = p :: ps ∧ pySplit c (x :: rest) = (x :: p) :: ps := by
  cases hr : pySplit c rest with
  | nil =>
    exfalso
    induction rest with
    | nil => simp [pySplit] at hr
    | cons y ys ih =>
      by_cases hy : y = c
      · simp [pySplit, hy] at hr
      · simp only [pySplit, hy, if_false] at hr
        cases hz : pySplit c ys with
        | nil => exact ih hz
        | cons q qs => rw [hz] at hr; simp at hr
  | cons p ps =>
    refine ⟨p, ps, rfl, ?_⟩
    simp only [pySplit, h, if_false, hr]

theorem pySplit_ne_nil (c : Char) (s : PStr) : pySplit c s ≠ [] := by
  cases s with
  | nil => simp [pySplit]
  | cons x rest =>
    by_cases h : x = c
    · subst h
      simp [pySplit_cons_sep]
    · obtain ⟨p, ps, _, h2⟩ := pySplit_cons_shape c x rest h
      simp [h2]

theorem not_mem_of_mem_pySplit (c : Char) (s : PStr) :
    ∀ p ∈ pySplit c s, c ∉ p := by
  induction s with
  | nil =>
    intro p hp
    simp only [pySplit, List.mem_singleton] at hp
    simp [hp]
  | cons x rest ih =>
    intro p hp
    by_cases h : x = c
    · subst h
      rw [pySplit_cons_sep] at hp
      rcases List.mem_cons.mp hp with hp | hp
      · simp [hp]
      · exact ih p hp
    · obtain ⟨q, qs, h1, h2⟩ := pySplit_cons_shape c x rest h
      rw [h2] at hp
      rcases List.mem_cons.mp hp with hp | hp
      · subst hp
        intro hmem
        rcases List.mem_cons.mp hmem with hc | hc
        · exact h hc.symm
        · exact ih q (h1 ▸ List.mem_cons_self q qs) hc
      · exact ih p (h1 ▸ List.mem_cons.mpr (Or.inr hp))

theorem pySplit_of_not_mem (c : Char) (p : PStr) (h : c ∉ p) : pySplit c p = [p] := by
  induction p with
  | nil => simp [pySplit]
  | cons x rest ih =>
    have hx : x ≠ c := fun hh => h (by simp [hh])
    have hr : c ∉ rest := fun hh => h (List.mem_cons.mpr (Or.inr hh))
    obtain ⟨q, qs, h1, h2⟩ := pySplit_cons_shape c x rest hx
    rw [ih hr] at h1
    injection h1 with hq hqs
    rw [h2, ← hq, ← hqs]

theorem pySplit_append_sep (c : Char) (p rest : PStr) (h : c ∉ p) :
    pySplit c (p ++ c :: rest) = p :: pySplit c rest := by
  induction p with
  | nil => simp [pySplit_cons_sep]
  | cons x xs ih =>
    have hx : x ≠ c := fun hh => h (by simp [hh])
    have hxs : c ∉ xs := fun hh => h (List.mem_cons.mpr (Or.inr hh))
    obtain ⟨q, qs, h1, h2⟩ := pySplit_cons_shape c x (xs ++ c :: rest) hx
    rw [ih hxs] at h1
    injection h1 with hq hqs
    rw [List.cons_append, h2, ← hq, ← hqs]

theorem pySplit_pyJoin (c : Char) (ps : List PStr) (hne : ps ≠ [])
    (hfree : ∀ p ∈ ps, c ∉ p) : pySplit c (pyJoin c ps) = ps := by
  induction ps with
  | nil => exact absurd rfl hne
  | cons p rest ih =>
    cases rest with
    | nil =>
      simp only [pyJoin]
      exact pySplit_of_not_mem c p (hfree p (List.mem_cons_self p []))
    | cons q qs =>
      have hjoin : pyJoin c (p :: q :: qs) = p ++ c :: pyJoin c (q :: qs) := rfl
      rw [hjoin, pySplit_append_sep c p _ (hfree p (List.mem_cons_self p _)),
        ih (by simp) (fun r hr => hfree r (List.mem_cons.mpr (Or.inr hr)))]

theorem pyPartFst_of_pySplit (c : Char) (s : PStr) (p : PStr) (ps : List PStr)
    (h : pySplit c s = p :: ps) : pyPartFst c s = p := by
  induction s generalizing p ps with
  | nil =>
    simp only [pySplit, List.cons.injEq] at h
    simp [pyPartFst, h.1.symm]
  | cons x rest ih =>
    by_cases hx : x = c
    · subst hx
      rw [pySplit_cons_sep] at h
      obtain ⟨hp, _⟩ := List.cons.injEq ([] : PStr) (pySplit x rest) p ps ▸ h
      simp [pyPartFst, List.takeWhile, ← hp]
    · obtain ⟨q, qs, h1, h2⟩ := pySplit_cons_shape c x rest hx
      rw [h2] at h
      obtain ⟨hp, _⟩ := List.cons.injEq (x :: q) qs p ps ▸ h
      have hq := ih q qs h1
      simp only [pyPartFst] at hq ⊢
      rw [← hp]
      simp only [List.takeWhile]
      have : (decide (x ≠ c)) = true := by simp [hx]
      rw [this]
      simp only [hq]

/-- Splitting the join of a nonempty prefix of `pySplit c s` recovers that
prefix (all parts are separator-free). -/
theorem pySplit_pyJoin_take (c : Char) (s : PStr) (i : Nat) (hi : 1 ≤ i) :
    pySplit c (pyJoin c ((pySplit c s).take i)) = (pySplit c s).take i := by
  apply pySplit_pyJoin
  · cases hs : pySplit c s with
    | nil => exact absurd hs (pySplit_ne_nil c s)
    | cons p ps =>
      cases i with
      | zero => omega
      | succ n => simp
  · intro p hp
    exact not_mem_of_mem_pySplit c s p (List.mem_of_mem_take hp)

/-- The root (text before the first separator) of the join of a nonempty
prefix of the parts of `s` is the root of `s`. -/
theorem pyPartFst_pyJoin_take (c : Char) (s : PStr) (i : Nat) (hi : 1 ≤ i) :
    pyPartFst c (pyJoin c ((pySplit c s).take i)) = pyPartFst c s := by
  have h2 := pySplit_pyJoin_take c s i hi
  cases hs : pySplit c s with
  | nil => exact absurd hs (pySplit_ne_nil c s)
  | cons p ps =>
    have htake : (p :: ps).take i = p :: ps.take (i - 1) := by
      cases i with
      | zero => omega
      | succ n => simp
    rw [hs, htake] at h2
    rw [htake]
    rw [pyPartFst_of_pySplit c _ p _ h2, pyPartFst_of_pySplit c s p ps hs]

end SplitJoinLemmas

/-! ## Embedding of `_flatten_deps` (import_tracker.py, lines 524-628) -/

/-- A witness path: the `parent_path`/`mod_path` lists of module names
carried through the flattening BFS. -/
abbrev WPath := List PStr

/-- `module_deps_map`: module name → (dep name → optional flag), as built
by `track_module` (line 98: `{mod: mod in opt_dep_names for mod in
non_std_module_names}`). -/
abbrev DepsMap := Dict (Dict Bool)

/-- `parent_direct_deps`: module name → (parent name → set of dep names),
as returned by `_find_parent_direct_deps`. -/
abbrev PDD := Dict (Dict (List PStr))

/-- `all_deps`: dep name → list of witness paths. -/
abbrev AllDeps := Dict (List WPath)

/-- The optional flag of the edge `parent → child`:
`module_deps_map.get(dep_parent, {}).get(dep_mod, False)` (line 607). -/
def edgeOptional (m : DepsMap) (parent child : PStr) : Bool :=
  dgetD (dgetD m parent []) child false

/-- The consecutive importer→imported pairs along `dep_source + [dep]`
(the `enumerate(dep_source[1:] + [dep])` loop of lines 599-610). -/
def pathEdges (src : WPath) (dep : PStr) : List (PStr × PStr) :=
  src.zip (src.drop 1 ++ [dep])

/-- `is_optional` for one witness: some link of the path is optional
(lines 596-610). -/
def pathOptional (m : DepsMap) (src : WPath) (dep : PStr) : Bool :=
  (pathEdges src dep).any fun e => edgeOptional m e.1 e.2

/-- State of the BFS in `_flatten_deps` (lines 535-580): the accumulated
`all_deps` and the `next_mods_to_check` dict. -/
structure FlatState where
  allDeps : AllDeps
  nextMods : Dict WPath

/-- Body of `for mod_to_check, parent_path in mods_to_check.items()`
(lines 539-578).  `new_mods` is computed against `all_deps` before the
per-dep loop runs, exactly as in the source; the per-dep loop first
collects `mod_dep_direct_parents` (with the `already_present` test
against the current `all_deps`), then appends the witness paths. -/
def flattenCheckMod (m : DepsMap) (pdd : PDD) (st : FlatState) (mc : PStr × WPath) :
    FlatState :=
  let modToCheck := mc.1
  let parentPath := mc.2
  let modParentsDirectDeps := dgetD pdd modToCheck []
  let modPath := parentPath ++ [modToCheck]
  let modDeps := dkeys (dgetD m modToCheck [])
  let newMods := modDeps.filter fun md => ¬ dmem st.allDeps md
  let nextMods := newMods.foldl (fun nm md => dset nm md modPath) st.nextMods
  let allDeps := modDeps.foldl
    (fun ad modDep =>
      let modDepDirectParents := modParentsDirectDeps.foldl
        (fun acc pp =>
          if modDep ∈ pp.2 then
            dset acc pp.1 (decide ([pp.1] ∈ dgetD ad modDep []))
          else acc)
        ([] : Dict Bool)
      if modDepDirectParents.isEmpty then dappend ad modDep modPath
      else
        modDepDirectParents.foldl
          (fun ad2 pa => if pa.2 then ad2 else dappend ad2 modDep (pa.1 :: modPath))
          ad)
    st.allDeps
  ⟨allDeps, nextMods⟩

/-- One level of the `while mods_to_check` loop (lines 537-580). -/
def flattenLevel (m : DepsMap) (pdd : PDD) (mods : Dict WPath) (ad : AllDeps) :
    FlatState :=
  mods.foldl (flattenCheckMod m pdd) ⟨ad, []⟩

/-- The `while mods_to_check:` loop, with fuel.  Each level that produces
a nonempty `next_mods_to_check` strictly enlarges the key set of
`all_deps` (new mods are exactly deps not yet in `all_deps`, and every
visited dep is recorded in `all_deps` during its level), and `all_deps`
keys are drawn from the finite set of dep names occurring in
`module_deps_map`, so `flattenFuel` levels always reach the empty
work-set and the fuel case is never hit on the defined entry point. -/
def flattenLoop (m : DepsMap) (pdd : PDD) : Nat → Dict WPath → AllDeps → AllDeps
  | 0, _, ad => ad
  | _ + 1, [], ad => ad
  | fuel + 1, mods@(_ :: _), ad =>
    let st := flattenLevel m pdd mods ad
    flattenLoop m pdd fuel st.nextMods st.allDeps

/-- Sufficient fuel: one more than the total number of dep entries in the
map (an upper bound on the number of distinct dep names). -/
def flattenFuel (m : DepsMap) : Nat :=
  m.foldl (fun n kv => n + kv.2.length) 0 + 1

/-- The BFS phase of `_flatten_deps` (lines 535-580): computes `all_deps`
for the given target. -/
def flattenAllDeps (moduleName : PStr) (m : DepsMap) (pdd : PDD) : AllDeps :=
  flattenLoop m pdd (flattenFuel m) [(moduleName, [])] []

/-- State of the post-processing loop of `_flatten_deps` (lines 584-623):
`flat_base_deps` and the pre-`all()` `optional_deps_map`. -/
structure PostState where
  flat : Dict (List WPath)
  optVals : Dict (List (Bool × WPath))

/-- Body of `for dep_source in dep_sources` (lines 593-622) for one
witness: append `[is_optional, dep_source]` to the root's
`opt_dep_values` and the truncated, deduplicated source to the root's
`flat_dep_sources`. -/
def flattenPostSource (m : DepsMap) (dep root : PStr) (st : PostState) (src : WPath) :
    PostState :=
  let isOpt := pathOptional m src dep
  let optVals := dappend st.optVals root (isOpt, src)
  let flatSrc := if root ∈ src then src.takeWhile (fun x => x ≠ root) else src
  let flat :=
    if flatSrc ∈ dgetD st.flat root [] then st.flat else dappend st.flat root flatSrc
  ⟨flat, optVals⟩

/-- Body of `for dep, dep_sources in all_deps.items()` (lines 587-622):
deps string-prefixed by `mod_base_name` are skipped; otherwise both
output dicts get the root key (`setdefault`) and each witness is
processed. -/
def flattenPostDep (m : DepsMap) (base : PStr) (st : PostState) (kv : PStr × List WPath) :
    PostState :=
  let dep := kv.1
  if base.isPrefixOf dep then st
  else
    let root := pyPartFst '.' dep
    let st1 : PostState := ⟨dsetdefault st.flat root [], dsetdefault st.optVals root []⟩
    kv.2.foldl (flattenPostSource m dep root) st1

/-- The post-processing phase of `_flatten_deps` (lines 584-628),
including the final `all(...)` collapse of `optional_deps_map`. -/
def flattenPost (m : DepsMap) (moduleName : PStr) (ad : AllDeps) :
    Dict (List WPath) × Dict Bool :=
  let base := pyPartFst '.' moduleName
  let st := ad.foldl (flattenPostDep m base) ⟨[], []⟩
  (st.flat, st.optVals.map fun kv => (kv.1, kv.2.all fun v => v.1))

/-- `_flatten_deps(module_name, module_deps_map, parent_direct_deps)`:
returns `(flat_base_deps, optional_deps_map)`. -/
def flattenDeps (moduleName : PStr) (m : DepsMap) (pdd : PDD) :
    Dict (List WPath) × Dict Bool :=
  flattenPost m moduleName (flattenAllDeps moduleName m pdd)

/-! ## Embedding of `_find_parent_direct_deps` (import_tracker.py, lines 488-521)

The Python function mutates `module_deps_map` in place while building
`parent_direct_deps`; the embedding threads both through an explicit
state.  The outer loop iterates over the dict's keys (which never change:
only values of existing keys are assigned), the middle loop over
`range(1, len(mod_name_parts))`, and the inner loop over the entries of
the parent's dep dict as it stands when the parent is reached. -/

/-- The mutable state of `_find_parent_direct_deps`: the (mutated)
`module_deps_map` and the accumulated `parent_direct_deps`. -/
structure AugState where
  map : DepsMap
  pdd : PDD

/-- Record `parent_direct_deps.setdefault(mod_name, {}).setdefault(
parent_mod_name, set()).add(dep)` (lines 517-519). -/
def pddAdd (pdd : PDD) (modName parentModName dep : PStr) : PDD :=
  let inner := dgetD pdd modName []
  dset pdd modName (dset inner parentModName (setAdd (dgetD inner parentModName []) dep))

/-- Body of `for dep, parent_dep_opt in parent_deps.items()` (lines
507-519): when the dep is not string-prefixed by the module's base name
and is currently optional (absent counts as optional), assign
`mod_deps[dep] = currently_optional and parent_dep_opt` and record the
parent-direct dep. -/
def augDepStep (modName baseName parentModName : PStr) (st : AugState)
    (dp : PStr × Bool) : AugState :=
  let dep := dp.1
  let parentDepOpt := dp.2
  let modDeps := dgetD st.map modName []
  let currentlyOptional := dgetD modDeps dep true
  if ¬ baseName.isPrefixOf dep ∧ currentlyOptional then
    { map := dset st.map modName (dset modDeps dep (currentlyOptional && parentDepOpt)),
      pdd := pddAdd st.pdd modName parentModName dep }
  else st

/-- Body of `for i in range(1, len(mod_name_parts))` (lines 504-519):
compute the parent name and fold over its current dep entries. -/
def augParentStep (modName baseName : PStr) (st : AugState) (i : Nat) : AugState :=
  let parentModName := pyJoin '.' ((pySplit '.' modName).take i)
  let parentDeps := dgetD st.map parentModName []
  parentDeps.foldl (augDepStep modName baseName parentModName) st

/-- Body of `for mod_name, mod_deps in module_deps_map.items()` (lines
498-519). -/
def augModStep (st : AugState) (modName : PStr) : AugState :=
  let baseName := pyPartFst '.' modName
  let parts := pySplit '.' modName
  (List.range' 1 (parts.length - 1)).foldl (augParentStep modName baseName) st

/-- `_find_parent_direct_deps(module_deps_map)`: returns the augmented
map together with the `parent_direct_deps` dict. -/
def findParentDirectDeps (m : DepsMap) : AugState :=
  (dkeys m).foldl augModStep ⟨m, []⟩

/-! ## Embedding of the bytecode import extractor
(import_tracker.py: `_get_value_col`/`_get_op_number`/`_get_try_end_number`
lines 314-334, `_mod_defined_in_init_file` lines 269-274,
`_figure_out_import` lines 337-390, `_get_imports` lines 393-485)

A `dis` output row is modelled structurally: `offset` is the opcode
number parsed by `_get_op_number` (the integer preceding the first
all-uppercase token), `opcode` the instruction name (the `"NAME" in line`
membership tests of the source hold exactly for the row's own opcode on
real `dis` output), and `arg` the parenthesised value column returned by
`_get_value_col` (empty when the row has no parenthesised value). -/

/-- An in-memory module: its `__name__` and optional `__file__`. -/
structure PyModule where
  name : PStr
  file : Option PStr
deriving DecidableEq, Repr

/-- One row of `bcode.dis()` output. -/
structure DisLine where
  offset : Nat
  opcode : PStr
  arg : PStr
deriving DecidableEq, Repr

/-- `os.path.basename` (POSIX). -/
def pyBasename (p : PStr) : PStr := (pySplit '/' p).getLastD []

/-- Index of the last occurrence of `c` in `s`, if any (`str.rfind`). -/
def pyRfind (c : Char) (s : PStr) : Option Nat :=
  (List.range s.length).foldl
    (fun acc i => if s.getD i c = c ∧ s.get? i = some c then some i else acc) none

/-- `os.path.splitext(b)[0]` for a bare file name `b`: cut at the last
dot unless every character before it is a dot (CPython
`genericpath._splitext`). -/
def pySplitextRoot (b : PStr) : PStr :=
  match pyRfind '.' b with
  | none => b
  | some d => if (b.take d).any (fun ch => ch ≠ '.') then b.take d else b

/-- `_mod_defined_in_init_file(mod)` (lines 269-274). -/
def modDefinedInInitFile (mod : PyModule) : Bool :=
  match mod.file with
  | none => false
  | some f => pySplitextRoot (pyBasename f) = pstr "__init__"

/-- The string Python interpolates for an optional value in an f-string
(`None` prints as `"None"`). -/
def optStr (o : Option PStr) : PStr := o.getD (pstr "None")

/-- `_figure_out_import(mod, dots, import_name, import_from)` (lines
337-390), with `sys.modules` passed explicitly. -/
def figureOutImport (sysMods : Dict PyModule) (mod : PyModule) (dots0 : Option Nat)
    (importName0 importFrom : Option PStr) : Option PyModule :=
  -- `if not dots:` — the absolute-import fast path (lines 350-358);
  -- falls through when the name is not in sys.modules.
  let early : Option PyModule :=
    if dots0 = none ∨ dots0 = some 0 then
      match importName0 with
      | none => none
      | some n =>
        match dget? sysMods n with
        | none => none
        | some m =>
          match importFrom with
          | some f =>
            (match dget? sysMods (n ++ '.' :: f) with
             | some m2 => some m2
             | none => some m)
          | none => some m
    else none
  match early with
  | some m => some m
  | none =>
    -- `dots = dots or 1` (line 361): both None and 0 become 1.
    let dots := match dots0 with
      | none => 1
      | some 0 => 1
      | some d => d
    let parts := pySplit '.' mod.name
    let definedInInit := modDefinedInInitFile mod
    let rootModName :=
      if 1 < dots then
        let parentDots := if definedInInit then dots - 1 else dots
        pyJoin '.' (parts.take (parts.length - parentDots))
      else if definedInInit then mod.name
      else pyJoin '.' (parts.take (parts.length - 1))
    -- `if not import_name:` (line 377) — None and the empty string.
    let importName := match importName0 with
      | none => rootModName
      | some n => if n.isEmpty then rootModName else rootModName ++ '.' :: n
    let fullCandidate := importName ++ '.' :: optStr importFrom
    match dget? sysMods fullCandidate with
    | some m => some m
    | none => dget? sysMods importName

/-- The state machine of `_get_imports` (lines 415-419). -/
structure ScanState where
  dots : Option Nat
  impName : Option PStr
  impFrom : Option PStr
  openImport : Bool
  openTries : List Nat
  req : List PyModule
  opt : List PyModule
deriving Repr

/-- The initial scanner state. -/
def scanInit : ScanState := ⟨none, none, none, false, [], [], []⟩

/-- One emission of the scanner: the tuple handed to
`_figure_out_import` when an open import is closed (lines 451-465),
its resolution, and whether a guarded region was open at that moment. -/
structure ImportEvent where
  dots : Option Nat
  impName : Option PStr
  impFrom : Option PStr
  guarded : Bool
  resolved : Option PyModule
deriving DecidableEq, Repr

/-- `_get_try_end_number` (lines 332-334): the last whitespace-separated
word of the value column, as an integer (e.g. `"to 20"` → `20`). -/
def setupEnd (arg : PStr) : Nat :=
  pyToNat (((pySplit ' ' arg).filter (fun w => ¬ w.isEmpty)).getLastD [])

/-- `if op_num in open_tries: open_tries.remove(op_num)` (lines 426-429):
performed for every line before the opcode dispatch. -/
def closeTries (tries : List Nat) (off : Nat) : List Nat :=
  if off ∈ tries then tries.erase off else tries

/-- One iteration of `for line in bcode.dis().split("\n")` (lines
421-473), returning the next state and the emission (if any). -/
def scanLine (sysMods : Dict PyModule) (mod : PyModule) (st : ScanState) (l : DisLine) :
    ScanState × Option ImportEvent :=
  let lineVal := l.arg
  let tries := closeTries st.openTries l.offset
  if l.opcode = pstr "LOAD_CONST" then
    ({ st with
        dots := if pyIsNumeric lineVal then some (pyToNat lineVal) else st.dots,
        openTries := tries }, none)
  else if l.opcode = pstr "IMPORT_NAME" then
    ({ st with openImport := true, impName := some lineVal, openTries := tries }, none)
  else if l.opcode = pstr "IMPORT_FROM" then
    ({ st with openImport := true, impFrom := some lineVal, openTries := tries }, none)
  else
    -- `SETUP_FINALLY`/`SETUP_EXCEPT` opens a guard whose end target is
    -- the last word of the value column (lines 444-447); this happens
    -- before the open import (if any) is emitted, so an import closed by
    -- the SETUP line itself already counts as guarded.
    let tries2 :=
      if l.opcode = pstr "SETUP_FINALLY" ∨ l.opcode = pstr "SETUP_EXCEPT" then
        setAdd tries (setupEnd lineVal)
      else tries
    let emission : Option ImportEvent :=
      if st.openImport then
        let m := figureOutImport sysMods mod st.dots st.impName st.impFrom
        some ⟨st.dots, st.impName, st.impFrom, ¬ tries2.isEmpty, m⟩
      else none
    let req := match emission with
      | some ev => match ev.resolved with
        | some im => if ev.guarded then st.req else setAdd st.req im
        | none => st.req
      | none => st.req
    let opt := match emission with
      | some ev => match ev.resolved with
        | some im => if ev.guarded then setAdd st.opt im else st.opt
        | none => st.opt
      | none => st.opt
    -- `if "STORE_NAME" not in line:` clears the dot count and base name
    -- (lines 469-471); `open_import`/`current_import_from` always reset.
    let keep := l.opcode = pstr "STORE_NAME"
    ({ dots := if keep then st.dots else none,
       impName := if keep then st.impName else none,
       impFrom := none,
       openImport := false,
       openTries := tries2,
       req := req,
       opt := opt }, emission)

/-- Scan a list of `dis` rows, collecting the emissions in order. -/
def scanLines (sysMods : Dict PyModule) (mod : PyModule) (st : ScanState) :
    List DisLine → ScanState × List ImportEvent
  | [] => (st, [])
  | l :: rest =>
    let (st', ev) := scanLine sysMods mod st l
    let (stf, evs) := scanLines sysMods mod st' rest
    (stf, (match ev with | some e => [e] | none => []) ++ evs)

/-- `_get_imports` on a disassembled instruction stream: the final
`(req_imports, opt_imports)` pair (lines 393-485; loader handling and the
end-of-stream assertion are outside the per-line state machine). -/
def getImports (sysMods : Dict PyModule) (mod : PyModule) (lines : List DisLine) :
    List PyModule × List PyModule :=
  let (st, _) := scanLines sysMods mod scanInit lines
  (st.req, st.opt)

/-! ## Embedding of the output assembly of `track_module`
(import_tracker.py, lines 152-219), specialised to the default
`submodules=False` (so `output_mods = {full_module_name}`).  The import
phase (lines 64-150) runs the real interpreter over the target library
and is represented by the `module_deps_map` argument.  The inner
`{"type": ...}` cell of the annotated schema is modelled by the type
string itself. -/

/-- String comparison by code point (Python `<` on strings). -/
def pstrLe : PStr → PStr → Bool
  | [], _ => true
  | _ :: _, [] => false
  | a :: xs, b :: ys => if a = b then pstrLe xs ys else decide (a < b)

/-- Insert into a sorted list (for `sorted(...)`). -/
def pyInsert (x : PStr) : List PStr → List PStr
  | [] => [x]
  | y :: ys => if pstrLe x y then x :: y :: ys else y :: pyInsert x ys

/-- Python `sorted` on strings. -/
def pySorted (l : List PStr) : List PStr := l.foldr pyInsert []

/-- `track_module` output in plain mode (no annotation flags): the
target's flattened dependency roots, sorted (lines 167-182). -/
def trackModulePlain (fullName : PStr) (m0 : DepsMap) : Dict (List PStr) :=
  let aug := findParentDirectDeps m0
  let flattened := flattenDeps fullName aug.map aug.pdd
  [(fullName, pySorted (dkeys flattened.1))]

/-- `track_module` output under `detect_transitive=True` (lines 191-200):
each dependency root is `direct` when some witness stack has length 1,
else `transitive`. -/
def trackModuleTypes (fullName : PStr) (m0 : DepsMap) : Dict (Dict PStr) :=
  let aug := findParentDirectDeps m0
  let flattened := flattenDeps fullName aug.map aug.pdd
  [(fullName,
    flattened.1.map fun kv =>
      (kv.1,
        if kv.2.any (fun stack => stack.length = 1) then pstr "direct"
        else pstr "transitive"))]

/-! ## Embedding of `setup_tools.py` -/

/-- Python set intersection, on duplicate-free lists. -/
def setInter (a b : List PStr) : List PStr := a.filter fun x => x ∈ b

/-- Python set difference. -/
def setDiff (a b : List PStr) : List PStr := a.filter fun x => x ∉ b

/-- Python set union. -/
def setUnion (a b : List PStr) : List PStr := b.foldl setAdd a

/-- The characters of `_REQ_SPLIT_EXPR = re.compile(r"[=><!~\[]")`
(setup_tools.py line 146). -/
def reqSplitChars : List Char := ['=', '>', '<', '!', '~', '[']

/-- `_REQ_SPLIT_EXPR.split(line, 1)[0]`. -/
def reqSplitFirst (line : PStr) : PStr := line.takeWhile fun c => c ∉ reqSplitChars

/-- `_standardize_package_name` (setup_tools.py lines 231-235). -/
def standardizePackageName (raw : PStr) : PStr := pyReplace '-' '_' (pyLower (pyStrip raw))

/-- The requirements dict built from the raw requirement lines
(setup_tools.py lines 59-63): standardized first field → stripped line,
skipping blank lines and comments. -/
def buildRequirements (reqLines : List PStr) : Dict PStr :=
  (reqLines.filter fun l => ¬ (pyStrip l).isEmpty ∧ ¬ (pstr "#").isPrefixOf l).foldl
    (fun d l => dset d (standardizePackageName (reqSplitFirst l)) (pyStrip l)) []

/-- `_get_required_packages_for_imports` (setup_tools.py lines 238-256),
with the module→packages index passed explicitly. -/
def getRequiredPackagesForImports (m2p : Dict (List PStr)) (imports : List PStr) :
    List PStr :=
  pySorted (imports.foldl
    (fun acc md =>
      match dget? m2p md with
      | some pkgs => pkgs.foldl setAdd acc
      | none => setAdd acc md)
    [])

/-- `_map_requirements` (setup_tools.py lines 159-170). -/
def mapRequirements (declared : Dict PStr) (depSet : List PStr) : List PStr :=
  pySorted ((depSet.filter fun dep => dmem declared (pyReplace '-' '_' dep)).map
    fun dep => dgetD declared (pyReplace '-' '_' dep) [])

/-- The Python exceptions arising in `parse_requirements`. -/
inductive PyErr
  | typeError
  | assertionError
deriving DecidableEq, Repr

/-- The requirements-partitioning stage of `parse_requirements`
(setup_tools.py lines 74-140), taking the `track_module` result as
input.  The `assert not missing_extras_modules` (lines 83-85) is the
assertion error; an empty import-set collection leaves `common_imports`
as `None` and the later `set(...) - None` raises a `TypeError`
(lines 93-119). -/
def parseRequirementsCore (requirements : Dict PStr) (mapping : Dict (List PStr))
    (extrasModules0 : Option (List PStr)) (m2p : Dict (List PStr)) :
    Except PyErr (List PStr × Dict (List PStr)) :=
  let extrasModules := match extrasModules0 with
    | none => dkeys mapping
    | some em => if em.isEmpty then dkeys mapping else em
  let missing := extrasModules.filter fun md => ¬ dmem mapping md
  if ¬ missing.isEmpty then .error .assertionError
  else
    let importSets : Dict (List PStr) := extrasModules.foldl
      (fun d md => dset d md (getRequiredPackagesForImports m2p (dgetD mapping md []))) []
    match importSets with
    | [] => .error .typeError
    | s0 :: restSets =>
      let common := restSets.foldl (fun acc kv => setInter acc kv.2) s0.2
      let extrasRequireSets := importSets.foldl
        (fun d kv => dset d kv.1 (setDiff kv.2 common)) []
      let allTracked := extrasRequireSets.foldl (fun acc kv => setUnion acc kv.2) common
      let missingReqs :=
        setDiff (getRequiredPackagesForImports m2p (dkeys requirements)) allTracked
      let commonImports := setUnion common missingReqs
      let extrasRequireSets2 :=
        if dmem extrasRequireSets (pstr "all") then extrasRequireSets
        else extrasRequireSets ++ [(pstr "all", setUnion allTracked missingReqs)]
      let standardized := requirements.foldl
        (fun d kv => dset d (pyReplace '-' '_' kv.1) kv.2) []
      .ok (mapRequirements standardized commonImports,
        extrasRequireSets2.foldl
          (fun d kv => dset d kv.1 (mapRequirements standardized kv.2)) [])

/-- The keyword parameters accepted by `track_module`
(import_tracker.py lines 20-28). -/
def trackModuleParams : List PStr :=
  [pstr "module_name", pstr "package_name", pstr "submodules",
   pstr "track_import_stack", pstr "full_depth", pstr "detect_transitive",
   pstr "show_optional"]

/-- A Python call succeeds only if every supplied keyword argument names
a parameter of the callee; otherwise it raises `TypeError`. -/
def pyCallKwargsOk (params kwargs : List PStr) : Bool := kwargs.all fun k => k ∈ params

/-- `parse_requirements(requirements, library_name, extras_modules,
**kwargs)` (setup_tools.py lines 21-140).  After building the
requirements dict (and setting `kwargs["submodules"]` when extras
modules are given, lines 66-69), it invokes
`track_module(library_name, recursive=True, **kwargs)` (line 72); the
keyword set of that call is checked against `track_module`'s signature.
`mapping` stands for the value `track_module` would return. -/
def parseRequirements (reqLines : List PStr) (_libraryName : PStr)
    (extrasModules : Option (List PStr)) (kwargs : List PStr)
    (mapping : Dict (List PStr)) (m2p : Dict (List PStr)) :
    Except PyErr (List PStr × Dict (List PStr)) :=
  let requirements := buildRequirements reqLines
  let kwargs2 := match extrasModules with
    | some em =>
      if ¬ em.isEmpty then
        if pstr "submodules" ∈ kwargs then kwargs else kwargs ++ [pstr "submodules"]
      else kwargs
    | none => kwargs
  if pyCallKwargsOk trackModuleParams (pstr "recursive" :: kwargs2) then
    parseRequirementsCore requirements mapping extrasModules m2p
  else .error .typeError

/-! ## Embedding of `lazy_import_errors.py` (`_LazyErrorAttr` lines
147-417, `_LazyErrorModule` lines 420-436).

`_LazyErrorAttr` overrides a fixed list of special methods with bodies
that call `self._raise`, leaves `__getattr__` returning `self`, and
inherits everything else (in particular the operations that the import
machinery uses, listed in the source comment at lines 204-213).  The
observable behaviour of each operation is recorded as a table. -/

/-- What an operation on a lazy-error placeholder does. -/
inductive LazyAttrBehavior
  | raises
  | returnsSelf
  | inherited
deriving DecidableEq, Repr

/-- The special methods `_LazyErrorAttr` overrides to raise
(lazy_import_errors.py lines 215-417, in source order). -/
def lazyRaiseOps : List PStr :=
  [pstr "__abs__", pstr "__add__", pstr "__aiter__", pstr "__and__",
   pstr "__anext__", pstr "__await__", pstr "__call__", pstr "__contains__",
   pstr "__delattr__", pstr "__delete__", pstr "__delitem__", pstr "__eq__",
   pstr "__float__", pstr "__floordiv__", pstr "__ge__", pstr "__get__",
   pstr "__getitem__", pstr "__gt__", pstr "__hash__", pstr "__iadd__",
   pstr "__iand__", pstr "__ifloordiv__", pstr "__ilshift__", pstr "__imatmul__",
   pstr "__imod__", pstr "__imul__", pstr "__index__", pstr "__int__",
   pstr "__invert__", pstr "__ior__", pstr "__ipow__", pstr "__irshift__",
   pstr "__isub__", pstr "__iter__", pstr "__itruediv__", pstr "__ixor__",
   pstr "__le__", pstr "__lshift__", pstr "__lt__", pstr "__matmul__",
   pstr "__mod__", pstr "__mul__", pstr "__ne__", pstr "__neg__",
   pstr "__next__", pstr "__or__", pstr "__pos__", pstr "__pow__",
   pstr "__radd__", pstr "__rand__", pstr "__rfloordiv__", pstr "__rlshift__",
   pstr "__rmatmul__", pstr "__rmod__", pstr "__rmul__", pstr "__ror__",
   pstr "__rpow__", pstr "__rrshift__", pstr "__rshift__", pstr "__rsub__",
   pstr "__rtruediv__", pstr "__rxor__", pstr "__set__", pstr "__setitem__",
   pstr "__str__", pstr "__sub__", pstr "__truediv__", pstr "__xor__"]

/-- The operations used by the import machinery that `_LazyErrorAttr`
deliberately does not override (source comment lines 204-213). -/
def lazyMachineryOps : List PStr :=
  [pstr "__bool__", pstr "__del__", pstr "__getattr__", pstr "__getattribute__",
   pstr "__init__", pstr "__len__", pstr "__new__", pstr "__repr__",
   pstr "__setattr__"]

/-- The behaviour of one special operation on a `_LazyErrorAttr`
placeholder: overridden ops raise, `__getattr__` returns the placeholder
itself (lines 194-196), everything else is inherited and does not
raise. -/
def lazyErrorAttrOp (op : PStr) : LazyAttrBehavior :=
  if op ∈ lazyRaiseOps then .raises
  else if op = pstr "__getattr__" then .returnsSelf
  else .inherited

/-- What `_LazyErrorModule.__getattr__` returns (lines 430-436). -/
inductive LazyModuleAttr
  | noneVal
  | lazyAttr
deriving DecidableEq, Repr

/-- Attribute access on the missing-module placeholder: the four special
module attributes yield `None`, everything else a fresh
`_LazyErrorAttr`; no attribute access raises. -/
def lazyErrorModuleGetattr (name : PStr) : LazyModuleAttr :=
  if name ∈ [pstr "__file__", pstr "__module__", pstr "__doc__", pstr "__cached__"]
    then .noneVal else .lazyAttr

/-! ## Claim C6 -/

/-- The keyword set of the `track_module` call made by
`parse_requirements` always contains `recursive`, which is not a
parameter of `track_module`. -/
theorem recursive_kwarg_rejected (kwargs : List PStr) :
    pyCallKwargsOk trackModuleParams (pstr "recursive" :: kwargs) = false := by
  simp only [pyCallKwargsOk, List.all_cons, Bool.and_eq_false_eq_eq_false_or_eq_false]
  left
  decide

/-- C6: for every well-typed requirements input and every library name,
`parse_requirements` raises a `TypeError` before producing any
`(base, extras)` result, because it invokes `track_module` with the
keyword argument `recursive=True`, which is not a parameter of
`track_module`'s signature; no call of `parse_requirements` returns
normally in this snapshot. -/
theorem parse_requirements_always_raises_type_error
    (reqLines : List PStr) (libraryName : PStr) (extrasModules : Option (List PStr))
    (kwargs : List PStr) (mapping : Dict (List PStr)) (m2p : Dict (List PStr)) :
    parseRequirements reqLines libraryName extrasModules kwargs mapping m2p =
      Except.error PyErr.typeError := by
  unfold parseRequirements
  simp only [recursive_kwarg_rejected, Bool.false_eq_true, if_false]

/-! ## Claim C10 -/

/-- C10 counterexample: attribute access on a lazy-error placeholder does
not raise (`__getattr__` returns the placeholder itself, so
`Baz.bat is Baz`), although the claim lists attribute access among the
operations that raise; and `__str__` raises although it is none of
attribute access, call, subscript, arithmetic, comparison or iteration,
although the claim says no other operation raises. -/
theorem lazy_attr_getattr_not_raises :
    lazyErrorAttrOp (pstr "__getattr__") = LazyAttrBehavior.returnsSelf ∧
    lazyErrorAttrOp (pstr "__getattr__") ≠ LazyAttrBehavior.raises ∧
    lazyErrorAttrOp (pstr "__str__") = LazyAttrBehavior.raises := by
  decide

/-- C10 (amended): the placeholder raises exactly on the overridden
special methods — call, subscript, arithmetic, comparison and iteration
all raise, as do the further overridden operations such as string
conversion and hashing — while attribute access never raises: on the
placeholder it returns the placeholder itself and on the missing-module
placeholder it returns `None` for the four stub module attributes and a
fresh placeholder otherwise; none of the operations used by the import
machinery (`__bool__`, `__del__`, `__getattr__`, `__getattribute__`,
`__init__`, `__len__`, `__new__`, `__repr__`, `__setattr__`) raises. -/
theorem lazy_error_raises_exactly_on_overridden_ops :
    lazyErrorAttrOp (pstr "__call__") = LazyAttrBehavior.raises ∧
    lazyErrorAttrOp (pstr "__getitem__") = LazyAttrBehavior.raises ∧
    lazyErrorAttrOp (pstr "__setitem__") = LazyAttrBehavior.raises ∧
    lazyErrorAttrOp (pstr "__add__") = LazyAttrBehavior.raises ∧
    lazyErrorAttrOp (pstr "__mul__") = LazyAttrBehavior.raises ∧
    lazyErrorAttrOp (pstr "__eq__") = LazyAttrBehavior.raises ∧
    lazyErrorAttrOp (pstr "__lt__") = LazyAttrBehavior.raises ∧
    lazyErrorAttrOp (pstr "__iter__") = LazyAttrBehavior.raises ∧
    lazyErrorAttrOp (pstr "__next__") = LazyAttrBehavior.raises ∧
    lazyErrorAttrOp (pstr "__getattr__") = LazyAttrBehavior.returnsSelf ∧
    (lazyMachineryOps.all fun op =>
      decide (lazyErrorAttrOp op ≠ LazyAttrBehavior.raises)) = true ∧
    lazyErrorModuleGetattr (pstr "__file__") = LazyModuleAttr.noneVal ∧
    lazyErrorModuleGetattr (pstr "__doc__") = LazyModuleAttr.noneVal ∧
    lazyErrorModuleGetattr (pstr "bat") = LazyModuleAttr.lazyAttr := by
  decide


/-! ## Claim C2 -/

/-- Turn the optional emission of one step into a list. -/
def evList (ev : Option ImportEvent) : List ImportEvent :=
  match ev with
  | some e => [e]
  | none => []

/-- Select the target of an unguarded emission. -/
def evReq (e : ImportEvent) : Option PyModule := if e.guarded then none else e.resolved

/-- Select the target of a guarded emission. -/
def evOpt (e : ImportEvent) : Option PyModule := if e.guarded then e.resolved else none

/-- How one scan step changes the two sets: exactly the unguarded
(resp. guarded) resolved emission, if any, is added to the required
(resp. optional) set. -/
theorem scanLine_req_opt_step (sysMods : Dict PyModule) (mod : PyModule) (st : ScanState)
    (l : DisLine) :
    (scanLine sysMods mod st l).1.req =
      ((evList (scanLine sysMods mod st l).2).filterMap evReq).foldl setAdd st.req ∧
    (scanLine sysMods mod st l).1.opt =
      ((evList (scanLine sysMods mod st l).2).filterMap evOpt).foldl setAdd st.opt := by
  unfold scanLine
  by_cases h1 : l.opcode = pstr "LOAD_CONST"
  · rw [if_pos h1]
    simp [evList, List.filterMap]
  · rw [if_neg h1]
    by_cases h2 : l.opcode = pstr "IMPORT_NAME"
    · rw [if_pos h2]
      simp [evList, List.filterMap]
    · rw [if_neg h2]
      by_cases h3 : l.opcode = pstr "IMPORT_FROM"
      · rw [if_pos h3]
        simp [evList, List.filterMap]
      · rw [if_neg h3]
        by_cases h4 : st.openImport
        · cases hm : figureOutImport sysMods mod st.dots st.impName st.impFrom with
          | none =>
            simp [h4, hm, evList, evReq, evOpt, List.filterMap]
          | some im =>
            by_cases hg : (if l.opcode = pstr "SETUP_FINALLY" ∨ l.opcode = pstr "SETUP_EXCEPT"
                then setAdd (closeTries st.openTries l.offset) (setupEnd l.arg)
                else closeTries st.openTries l.offset).isEmpty
            · simp [h4, hm, hg, evList, evReq, evOpt, List.filterMap]
            · simp [h4, hm, hg, evList, evReq, evOpt, List.filterMap]
        · simp [h4, evList, List.filterMap]

/-- The two extractor output sets are the folds of the unguarded
(resp. guarded) resolved emissions over the initial sets. -/
theorem scanLines_req_opt (sysMods : Dict PyModule) (mod : PyModule) :
    ∀ (lines : List DisLine) (st : ScanState),
      (scanLines sysMods mod st lines).1.req =
        ((scanLines sysMods mod st lines).2.filterMap evReq).foldl setAdd st.req ∧
      (scanLines sysMods mod st lines).1.opt =
        ((scanLines sysMods mod st lines).2.filterMap evOpt).foldl setAdd st.opt := by
  intro lines
  induction lines with
  | nil =>
    intro st
    simp [scanLines]
  | cons l rest ih =>
    intro st
    obtain ⟨hreq, hopt⟩ := scanLine_req_opt_step sysMods mod st l
    obtain ⟨ihr, iho⟩ := ih (scanLine sysMods mod st l).1
    constructor
    · show (scanLines sysMods mod (scanLine sysMods mod st l).1 rest).1.req = _
      rw [ihr]
      show _ = ((evList (scanLine sysMods mod st l).2 ++
        (scanLines sysMods mod (scanLine sysMods mod st l).1 rest).2).filterMap
          evReq).foldl setAdd st.req
      rw [List.filterMap_append, List.foldl_append, ← hreq]
    · show (scanLines sysMods mod (scanLine sysMods mod st l).1 rest).1.opt = _
      rw [iho]
      show _ = ((evList (scanLine sysMods mod st l).2 ++
        (scanLines sysMods mod (scanLine sysMods mod st l).1 rest).2).filterMap
          evOpt).foldl setAdd st.opt
      rw [List.filterMap_append, List.foldl_append, ← hopt]

/-- C2 (amended): each import emission is classified exactly one way —
optional when a guarded region is open at the moment it is resolved,
required otherwise — and the extractor's output pair consists exactly of
the unguarded and the guarded emission targets respectively; the two
sets are disjoint as emissions but need not be disjoint as module sets
(see the counterexample). -/
theorem get_imports_partitions_by_emission (sysMods : Dict PyModule) (mod : PyModule)
    (lines : List DisLine) :
    (∀ e : ImportEvent,
      (e.guarded = true → evReq e = none ∧ evOpt e = e.resolved) ∧
      (e.guarded = false → evReq e = e.resolved ∧ evOpt e = none)) ∧
    (getImports sysMods mod lines).1 =
      ((scanLines sysMods mod scanInit lines).2.filterMap evReq).foldl setAdd [] ∧
    (getImports sysMods mod lines).2 =
      ((scanLines sysMods mod scanInit lines).2.filterMap evOpt).foldl setAdd [] := by
  refine ⟨?_, ?_, ?_⟩
  · intro e
    constructor
    · intro hg
      simp [evReq, evOpt, hg]
    · intro hg
      simp [evReq, evOpt, hg]
  · exact (scanLines_req_opt sysMods mod lines scanInit).1
  · exact (scanLines_req_opt sysMods mod lines scanInit).2

/-- The `yaml` module object used by the extractor counterexamples. -/
def yamlMod : PyModule := ⟨pstr "yaml", some (pstr "/sp/yaml/__init__.py")⟩

/-- The module being scanned in the extractor counterexamples. -/
def scanMod : PyModule := ⟨pstr "m", some (pstr "/sp/m.py")⟩

/-- `sys.modules` for the extractor counterexamples. -/
def sysModsEx : Dict PyModule := [(pstr "yaml", yamlMod)]

/-- A disassembly in which `yaml` is imported once inside a
`try:` block and once after it:
`try: import yaml / except: pass` followed by `import yaml`. -/
def linesSameTarget : List DisLine :=
  [ ⟨0, pstr "SETUP_FINALLY", pstr "to 12"⟩,
    ⟨2, pstr "LOAD_CONST", pstr "0"⟩,
    ⟨4, pstr "IMPORT_NAME", pstr "yaml"⟩,
    ⟨6, pstr "STORE_NAME", pstr "yaml"⟩,
    ⟨8, pstr "POP_BLOCK", []⟩,
    ⟨10, pstr "JUMP_FORWARD", pstr "to 14"⟩,
    ⟨12, pstr "POP_TOP", []⟩,
    ⟨14, pstr "LOAD_CONST", pstr "0"⟩,
    ⟨16, pstr "IMPORT_NAME", pstr "yaml"⟩,
    ⟨18, pstr "STORE_NAME", pstr "yaml"⟩ ]

/-- C2 counterexample: a module that imports the same target both inside
and outside a guarded region puts that target in **both** the required
and the optional set — the pair returned by `_get_imports` is not
disjoint. -/
theorem get_imports_sets_not_disjoint :
    yamlMod ∈ (getImports sysModsEx scanMod linesSameTarget).1 ∧
    yamlMod ∈ (getImports sysModsEx scanMod linesSameTarget).2 := by
  decide

/-! ## Claim C9 -/

/-- A disassembly that binds the first `IMPORT_FROM` result with
`STORE_FAST` before a second `IMPORT_FROM` from the same
`IMPORT_NAME`. -/
def linesStoreFast : List DisLine :=
  [ ⟨0, pstr "LOAD_CONST", pstr "0"⟩,
    ⟨2, pstr "IMPORT_NAME", pstr "os"⟩,
    ⟨4, pstr "IMPORT_FROM", pstr "path"⟩,
    ⟨6, pstr "STORE_FAST", pstr "path"⟩,
    ⟨8, pstr "IMPORT_FROM", pstr "sep"⟩,
    ⟨10, pstr "POP_TOP", []⟩ ]

/-- C9 counterexample: after a `STORE_FAST` binding (`"STORE_NAME" not
in line` holds, so the state is cleared), the second `IMPORT_FROM` is
resolved with dot count `None` and base name `None` instead of the first
emission's `0` and `"os"`: the dot count and base name do **not**
persist across `STORE_FAST` (nor `STORE_GLOBAL`). -/
theorem store_fast_clears_import_state :
    ((scanLines sysModsEx scanMod scanInit linesStoreFast).2.map fun e =>
      (e.dots, e.impName)) = [(some 0, some (pstr "os")), (none, none)] ∧
    ((scanLines sysModsEx scanMod scanInit linesStoreFast).2.map fun e =>
      (e.dots, e.impName)).getD 1 (none, none) ≠
      ((scanLines sysModsEx scanMod scanInit linesStoreFast).2.map fun e =>
        (e.dots, e.impName)).getD 0 (none, none) := by
  decide

/-- C9 (amended): the dot count and base module name persist between
consecutive `IMPORT_FROM`s only across a `STORE_NAME` binding: for every
instruction stream `IMPORT_NAME n; IMPORT_FROM f1; STORE_NAME;
IMPORT_FROM f2; closer`, both emissions are resolved with the same
relative-dot count and the same base module name (those entering the
sequence); `STORE_FAST`/`STORE_GLOBAL` bindings instead clear both. -/
theorem store_name_persists_import_state (sysMods : Dict PyModule) (mod : PyModule)
    (st : ScanState) (o1 o2 o3 o4 o5 : Nat) (n f1 f2 sArg cArg cOp : PStr)
    (hc1 : cOp ≠ pstr "LOAD_CONST") (hc2 : cOp ≠ pstr "IMPORT_NAME")
    (hc3 : cOp ≠ pstr "IMPORT_FROM") :
    ((scanLines sysMods mod st
        [⟨o1, pstr "IMPORT_NAME", n⟩, ⟨o2, pstr "IMPORT_FROM", f1⟩,
         ⟨o3, pstr "STORE_NAME", sArg⟩, ⟨o4, pstr "IMPORT_FROM", f2⟩,
         ⟨o5, cOp, cArg⟩]).2.map fun e => (e.dots, e.impName, e.impFrom)) =
      [(st.dots, some n, some f1), (st.dots, some n, some f2)] := by
  have e1 : pstr "IMPORT_NAME" ≠ pstr "LOAD_CONST" := by decide
  have e2 : pstr "IMPORT_FROM" ≠ pstr "LOAD_CONST" := by decide
  have e3 : pstr "IMPORT_FROM" ≠ pstr "IMPORT_NAME" := by decide
  have e4 : pstr "STORE_NAME" ≠ pstr "LOAD_CONST" := by decide
  have e5 : pstr "STORE_NAME" ≠ pstr "IMPORT_NAME" := by decide
  have e6 : pstr "STORE_NAME" ≠ pstr "IMPORT_FROM" := by decide
  simp [scanLines, scanLine, evList, e1, e2, e3, e4, e5, e6, hc1, hc2, hc3]

/-- Witness for the amended C9 theorem at a concrete stream. -/
theorem store_name_persists_import_state_witness :
    ((scanLines sysModsEx scanMod scanInit
        [⟨0, pstr "IMPORT_NAME", pstr "os"⟩, ⟨2, pstr "IMPORT_FROM", pstr "path"⟩,
         ⟨4, pstr "STORE_NAME", pstr "path"⟩, ⟨6, pstr "IMPORT_FROM", pstr "sep"⟩,
         ⟨8, pstr "POP_TOP", []⟩]).2.map fun e => (e.dots, e.impName, e.impFrom)) =
      [(none, some (pstr "os"), some (pstr "path")),
       (none, some (pstr "os"), some (pstr "sep"))] :=
  store_name_persists_import_state sysModsEx scanMod scanInit 0 2 4 6 8
    (pstr "os") (pstr "path") (pstr "sep") (pstr "path") [] (pstr "POP_TOP")
    (by decide) (by decide) (by decide)

/-! ## Claim C5 -/

/-- Looking up in a dict whose values were rewritten entrywise. -/
theorem dget?_mapVal {β γ : Type} (d : List (PStr × β)) (k : PStr) (f : PStr → β → γ) :
    dget? (d.map fun kv => (kv.1, f kv.1 kv.2)) k = (dget? d k).map (f k) := by
  induction d with
  | nil => simp [dget?]
  | cons hd tl ih =>
    obtain ⟨k', v'⟩ := hd
    by_cases h : k' = k
    · subst h
      simp [dget?]
    · simp [dget?, h, ih]

/-- Modelled from the spec: the `module_deps_map` that `track_module`'s
module-import phase builds for the `inter_mod_deps` sample library (the sample
sources other than `inter_mod_deps/__init__.py` and
`inter_mod_deps/submod2/__init__.py` are not in this snapshot).  Per the
spec, `submod1` has the single external import `alog`; `submod2` imports
`yaml` directly plus its sibling `submod1` and its child `submod2.foo`
(which imports `yaml`); `submod3` imports `submod2`; `submod4` and
`submod5` carry `yaml` directly and via `submod2.foo` respectively; the
package root imports all five submodules.  No import is guarded, so all
optional flags are false. -/
def interModDepsMap : DepsMap :=
  [ (pstr "inter_mod_deps",
      [ (pstr "inter_mod_deps.submod1", false), (pstr "inter_mod_deps.submod2", false),
        (pstr "inter_mod_deps.submod3", false), (pstr "inter_mod_deps.submod4", false),
        (pstr "inter_mod_deps.submod5", false) ]),
    (pstr "inter_mod_deps.submod1", [(pstr "alog", false)]),
    (pstr "inter_mod_deps.submod2",
      [ (pstr "yaml", false), (pstr "inter_mod_deps.submod1", false),
        (pstr "inter_mod_deps.submod2.foo", false) ]),
    (pstr "inter_mod_deps.submod2.foo", [(pstr "yaml", false)]),
    (pstr "inter_mod_deps.submod3", [(pstr "inter_mod_deps.submod2", false)]),
    (pstr "inter_mod_deps.submod4", [(pstr "yaml", false)]),
    (pstr "inter_mod_deps.submod5", [(pstr "inter_mod_deps.submod2.foo", false)]) ]

/-- The queried target of scenario S2. -/
def submod2Name : PStr := pstr "inter_mod_deps.submod2"

/-- C5: a third-party dependency is classified `direct` exactly when at
least one recorded witness stack has length 1; concretely,
`track_module("inter_mod_deps.submod2")` returns
`{"inter_mod_deps.submod2": ["alog", "yaml"]}`, and with
`detect_transitive` enabled `yaml` is `direct` and `alog` is
`transitive`. -/
theorem track_module_direct_iff_length_one_witness :
    (∀ (fullName : PStr) (m0 : DepsMap) (R : PStr) (stks : List WPath),
      dget? (flattenDeps fullName (findParentDirectDeps m0).map
        (findParentDirectDeps m0).pdd).1 R = some stks →
      (dget? (dgetD (trackModuleTypes fullName m0) fullName []) R =
          some (pstr "direct") ↔ ∃ s ∈ stks, s.length = 1)) ∧
    trackModulePlain submod2Name interModDepsMap =
      [(submod2Name, [pstr "alog", pstr "yaml"])] ∧
    dget? (dgetD (trackModuleTypes submod2Name interModDepsMap) submod2Name [])
      (pstr "yaml") = some (pstr "direct") ∧
    dget? (dgetD (trackModuleTypes submod2Name interModDepsMap) submod2Name [])
      (pstr "alog") = some (pstr "transitive") := by
  refine ⟨?_, by decide, by decide, by decide⟩
  intro fullName m0 R stks h
  have hinner : dgetD (trackModuleTypes fullName m0) fullName [] =
      (flattenDeps fullName (findParentDirectDeps m0).map
        (findParentDirectDeps m0).pdd).1.map fun kv =>
          (kv.1, if kv.2.any (fun stack => stack.length = 1) then pstr "direct"
            else pstr "transitive") := by
    simp [trackModuleTypes, dgetD, dget?]
  have hmap := dget?_mapVal
    (flattenDeps fullName (findParentDirectDeps m0).map (findParentDirectDeps m0).pdd).1 R
    fun _ stksB =>
      if stksB.any (fun stack => stack.length = 1) then pstr "direct" else pstr "transitive"
  rw [hinner, hmap, h]
  have hred : Option.map
      ((fun (_ : PStr) (stksB : List WPath) =>
        if stksB.any (fun stack => stack.length = 1) then pstr "direct"
        else pstr "transitive") R) (some stks) =
      some (if stks.any (fun stack => stack.length = 1) then pstr "direct"
        else pstr "transitive") := rfl
  rw [hred]
  by_cases hany : stks.any (fun stack => stack.length = 1)
  · rw [if_pos hany]
    simp only [List.any_eq_true, decide_eq_true_eq] at hany
    exact ⟨fun _ => hany, fun _ => rfl⟩
  · rw [if_neg hany]
    constructor
    · intro hh
      exact absurd (Option.some.inj hh) (by decide)
    · intro hh
      exfalso
      apply hany
      obtain ⟨s, hs, hlen⟩ := hh
      rw [List.any_eq_true]
      exact ⟨s, hs, by simp [hlen]⟩

/-- Witness for the universal part of the C5 theorem at the concrete
scenario: `yaml`'s witness list for `submod2` contains a length-1
stack. -/
theorem track_module_direct_iff_length_one_witness_witness :
    dget? (dgetD (trackModuleTypes submod2Name interModDepsMap) submod2Name [])
        (pstr "yaml") = some (pstr "direct") ↔
      ∃ s ∈ [[submod2Name], [submod2Name, pstr "inter_mod_deps.submod2.foo"]],
        List.length s = 1 :=
  track_module_direct_iff_length_one_witness.1 submod2Name interModDepsMap
    (pstr "yaml") [[submod2Name], [submod2Name, pstr "inter_mod_deps.submod2.foo"]]
    (by decide)

/-! ## Post-processing characterization (for claims C1 and C4) -/

section PostCharacterization

variable {α : Type}

theorem dget?_append (d1 d2 : Dict α) (k : PStr) :
    dget? (d1 ++ d2) k = match dget? d1 k with
      | some v => some v
      | none => dget? d2 k := by
  induction d1 with
  | nil => simp [dget?]
  | cons hd tl ih =>
    obtain ⟨k', v'⟩ := hd
    by_cases h : k' = k <;> simp [dget?, h, ih]

theorem dget?_dsetdefault_self (d : Dict α) (k : PStr) (v : α) :
    dget? (dsetdefault d k v) k = some ((dget? d k).getD v) := by
  unfold dsetdefault
  cases h : dget? d k with
  | some w => simp [h]
  | none => simp [dget?_append, h, dget?]

theorem dget?_dsetdefault_ne (d : Dict α) (k R : PStr) (v : α) (h : R ≠ k) :
    dget? (dsetdefault d k v) R = dget? d R := by
  unfold dsetdefault
  cases hk : dget? d k with
  | some w => rfl
  | none =>
    rw [dget?_append]
    cases hR : dget? d R with
    | some w => rfl
    | none =>
      have h' : ¬ (k = R) := fun hh => h hh.symm
      simp [dget?, h']

/-- There is a relevant (non-prefixed) dep with root `R` among the
`all_deps` entries. -/
def adHasRoot (base : PStr) (ad : AllDeps) (R : PStr) : Bool :=
  ad.any fun kv => ¬ base.isPrefixOf kv.1 ∧ pyPartFst '.' kv.1 = R

/-- The witnesses the post-processing loop records under root `R`: all
`(dep, dep_source)` pairs of non-prefixed `all_deps` entries whose root
is `R`, in iteration order. -/
def witnessList (base : PStr) (ad : AllDeps) (R : PStr) : List (PStr × WPath) :=
  (ad.filter fun kv => ¬ base.isPrefixOf kv.1 ∧ pyPartFst '.' kv.1 = R).flatMap
    fun kv => kv.2.map fun src => (kv.1, src)

/-- The `[is_optional, dep_source]` values accumulated under root `R`. -/
def witnessAnnots (m : DepsMap) (base : PStr) (ad : AllDeps) (R : PStr) :
    List (Bool × WPath) :=
  (witnessList base ad R).map fun w => (pathOptional m w.2 w.1, w.2)

/-- "`R` has a fully required recorded witness": the spec-side required
closure of the target (`R` belongs to it iff some recorded witness path
carries no optional edge). -/
def requiredClosure (m : DepsMap) (base : PStr) (ad : AllDeps) (R : PStr) : Prop :=
  ∃ w ∈ witnessList base ad R, pathOptional m w.2 w.1 = false

/-- After folding the witnesses of one dep, the root's `opt_dep_values`
list has gained one annotated entry per witness. -/
theorem postSource_fold_optVals_self (m : DepsMap) (dep root : PStr) :
    ∀ (srcs : List WPath) (st : PostState) (l0 : List (Bool × WPath)),
      dget? st.optVals root = some l0 →
      dget? ((srcs.foldl (flattenPostSource m dep root) st).optVals) root =
        some (l0 ++ srcs.map fun src => (pathOptional m src dep, src)) := by
  intro srcs
  induction srcs with
  | nil => intro st l0 h; simpa using h
  | cons src rest ih =>
    intro st l0 h
    have hstep : dget? ((flattenPostSource m dep root st src).optVals) root =
        some (l0 ++ [(pathOptional m src dep, src)]) := by
      simp only [flattenPostSource, dappend, dgetD, h, Option.getD_some]
      exact dget?_dset_self _ _ _
    rw [List.foldl_cons, ih _ _ hstep]
    simp

/-- Folding witnesses of a dep under `root` leaves the `opt_dep_values`
of every other key unchanged. -/
theorem postSource_fold_optVals_ne (m : DepsMap) (dep root R : PStr) (hne : R ≠ root) :
    ∀ (srcs : List WPath) (st : PostState),
      dget? ((srcs.foldl (flattenPostSource m dep root) st).optVals) R =
        dget? st.optVals R := by
  intro srcs
  induction srcs with
  | nil => intro st; rfl
  | cons src rest ih =>
    intro st
    rw [List.foldl_cons, ih]
    simp only [flattenPostSource, dappend]
    exact dget?_dset_ne _ _ _ _ hne

/-- Folding witnesses preserves `flat_base_deps` key membership provided
the root key is already present. -/
theorem postSource_fold_flat_mem (m : DepsMap) (dep root : PStr) :
    ∀ (srcs : List WPath) (st : PostState), dmem st.flat root = true →
      ∀ R, dmem ((srcs.foldl (flattenPostSource m dep root) st).flat) R =
        dmem st.flat R := by
  intro srcs
  induction srcs with
  | nil => intro st _ R; rfl
  | cons src rest ih =>
    intro st hroot R
    rw [List.foldl_cons]
    have hstep : ∀ R', dmem ((flattenPostSource m dep root st src).flat) R' =
        dmem st.flat R' := by
      intro R'
      have hdap : ∀ x : WPath, dmem (dappend st.flat root x) R' = dmem st.flat R' := by
        intro x
        by_cases hR' : R' = root
        · subst hR'
          have h1 : dmem (dappend st.flat R' x) R' = true := by
            simp [dmem, dappend, dget?_dset_self]
          rw [h1, hroot]
        · simp [dmem, dappend, dget?_dset_ne _ _ _ _ hR']
      simp only [flattenPostSource]
      split <;> split <;> first | rfl | exact hdap _
    have hroot' : dmem ((flattenPostSource m dep root st src).flat) root = true := by
      rw [hstep]; exact hroot
    rw [ih _ hroot', hstep]

end PostCharacterization

section PostCharacterizationB

/-- Unfolding `witnessAnnots` over the head entry of `all_deps`. -/
theorem witnessAnnots_cons (m : DepsMap) (base : PStr) (kv : PStr × List WPath)
    (rest : AllDeps) (R : PStr) :
    witnessAnnots m base (kv :: rest) R =
      (if ¬ base.isPrefixOf kv.1 = true ∧ pyPartFst '.' kv.1 = R then
        kv.2.map fun src => (pathOptional m src kv.1, src)
      else []) ++ witnessAnnots m base rest R := by
  simp only [witnessAnnots, witnessList, List.filter_cons]
  by_cases h : ¬ base.isPrefixOf kv.1 = true ∧ pyPartFst '.' kv.1 = R
  · have hd : decide (¬ base.isPrefixOf kv.1 = true ∧ pyPartFst '.' kv.1 = R) = true := by
      simpa using h
    rw [if_pos h, hd, if_pos rfl]
    simp [List.flatMap_cons, List.map_map, Function.comp]
  · have hd : decide (¬ base.isPrefixOf kv.1 = true ∧ pyPartFst '.' kv.1 = R) = false := by
      simpa using h
    rw [if_neg h, hd]
    simp

/-- `adHasRoot` over the head entry. -/
theorem adHasRoot_cons (base : PStr) (kv : PStr × List WPath) (rest : AllDeps) (R : PStr) :
    adHasRoot base (kv :: rest) R =
      (decide (¬ base.isPrefixOf kv.1 = true ∧ pyPartFst '.' kv.1 = R) ||
        adHasRoot base rest R) := by
  simp [adHasRoot, List.any_cons]

/-- Effect of one `all_deps` entry on the accumulated `opt_dep_values`
under key `R`. -/
theorem postDep_optVals (m : DepsMap) (base : PStr) (st : PostState)
    (kv : PStr × List WPath) (R : PStr) :
    dget? ((flattenPostDep m base st kv).optVals) R =
      if ¬ base.isPrefixOf kv.1 = true ∧ pyPartFst '.' kv.1 = R then
        some ((dgetD st.optVals R []) ++ kv.2.map fun src => (pathOptional m src kv.1, src))
      else dget? st.optVals R := by
  by_cases hpre : base.isPrefixOf kv.1
  · have hcond : ¬ (¬ base.isPrefixOf kv.1 = true ∧ pyPartFst '.' kv.1 = R) := by
      intro hc
      exact absurd hpre (by simpa using hc.1)
    rw [if_neg hcond]
    simp [flattenPostDep, hpre]
  · by_cases hroot : pyPartFst '.' kv.1 = R
    · rw [if_pos ⟨by simpa using hpre, hroot⟩]
      simp only [flattenPostDep, hpre, Bool.false_eq_true, if_false]
      rw [← hroot]
      have hst1 : dget? (dsetdefault st.optVals (pyPartFst '.' kv.1) []) (pyPartFst '.' kv.1) =
          some ((dget? st.optVals (pyPartFst '.' kv.1)).getD []) :=
        dget?_dsetdefault_self _ _ _
      have hfold := postSource_fold_optVals_self m kv.1 (pyPartFst '.' kv.1) kv.2
        ⟨dsetdefault st.flat (pyPartFst '.' kv.1) [],
         dsetdefault st.optVals (pyPartFst '.' kv.1) []⟩
        ((dget? st.optVals (pyPartFst '.' kv.1)).getD []) hst1
      rw [hfold]
      simp [dgetD]
    · have hcond : ¬ (¬ base.isPrefixOf kv.1 = true ∧ pyPartFst '.' kv.1 = R) := by
        intro hc
        exact hroot hc.2
      rw [if_neg hcond]
      simp only [flattenPostDep, hpre, Bool.false_eq_true, if_false]
      have hRne : R ≠ pyPartFst '.' kv.1 := fun hh => hroot hh.symm
      rw [postSource_fold_optVals_ne m kv.1 _ R hRne]
      exact dget?_dsetdefault_ne _ _ _ _ hRne

end PostCharacterizationB

section PostCharacterizationC

/-- Key membership through `setdefault`. -/
theorem dmem_dsetdefault {α : Type} (d : Dict α) (k R : PStr) (v : α) :
    dmem (dsetdefault d k v) R = true ↔ (dmem d R = true ∨ k = R) := by
  unfold dsetdefault
  cases hk : dget? d k with
  | some w =>
    constructor
    · intro h; exact Or.inl h
    · intro h
      rcases h with h | h
      · exact h
      · subst h
        simp [dmem, hk]
  | none =>
    simp only [dmem, dget?_append]
    cases hR : dget? d R with
    | some w => simp [hR]
    | none =>
      by_cases heq : k = R
      · simp [dget?, heq]
      · simp [dget?, heq]

/-- Key membership after one `all_deps` entry. -/
theorem postDep_flat_mem (m : DepsMap) (base : PStr) (st : PostState)
    (kv : PStr × List WPath) (R : PStr) :
    dmem ((flattenPostDep m base st kv).flat) R = true ↔
      (dmem st.flat R = true ∨ (¬ base.isPrefixOf kv.1 = true ∧ pyPartFst '.' kv.1 = R)) := by
  by_cases hpre : base.isPrefixOf kv.1
  · simp only [flattenPostDep, hpre, if_true]
    constructor
    · intro h; exact Or.inl h
    · intro h
      rcases h with h | h
      · exact h
      · exact absurd hpre (by simpa using h.1)
  · simp only [flattenPostDep, hpre, Bool.false_eq_true, if_false]
    have hroot1 : dmem (dsetdefault st.flat (pyPartFst '.' kv.1) []) (pyPartFst '.' kv.1)
        = true := by
      simp [dmem, dget?_dsetdefault_self]
    rw [postSource_fold_flat_mem m kv.1 (pyPartFst '.' kv.1) kv.2 _ hroot1 R,
      dmem_dsetdefault st.flat (pyPartFst '.' kv.1) R []]
    constructor
    · intro h
      rcases h with h | h
      · exact Or.inl h
      · exact Or.inr ⟨by simp [hpre], h⟩
    · intro h
      rcases h with h | h
      · exact Or.inl h
      · exact Or.inr h.2

/-- The `opt_dep_values` accumulated by the post-processing fold: the
initial value under `R` (if any) extended with the annotated witnesses of
the processed entries. -/
theorem postFold_optVals (m : DepsMap) (base : PStr) :
    ∀ (ad : AllDeps) (st : PostState) (R : PStr),
      dget? ((ad.foldl (flattenPostDep m base) st).optVals) R =
        match dget? st.optVals R with
        | some l0 => some (l0 ++ witnessAnnots m base ad R)
        | none =>
          if adHasRoot base ad R then some (witnessAnnots m base ad R) else none := by
  intro ad
  induction ad with
  | nil =>
    intro st R
    have hnil : witnessAnnots m base [] R = [] := rfl
    have hroot : adHasRoot base [] R = false := rfl
    cases h : dget? st.optVals R <;> simp [List.foldl_nil, hnil, hroot, h]
  | cons kv rest ih =>
    intro st R
    rw [List.foldl_cons, ih, postDep_optVals, witnessAnnots_cons, adHasRoot_cons]
    by_cases hcond : ¬ base.isPrefixOf kv.1 = true ∧ pyPartFst '.' kv.1 = R
    · rw [if_pos hcond, if_pos hcond]
      have hd : decide (¬ base.isPrefixOf kv.1 = true ∧ pyPartFst '.' kv.1 = R) = true := by
        simpa using hcond
      rw [hd]
      cases h : dget? st.optVals R with
      | some l0 => simp [dgetD, h, List.append_assoc]
      | none => simp [dgetD, h]
    · rw [if_neg hcond, if_neg hcond]
      have hd : decide (¬ base.isPrefixOf kv.1 = true ∧ pyPartFst '.' kv.1 = R) = false := by
        simpa using hcond
      rw [hd]
      cases h : dget? st.optVals R <;> simp [h]

/-- Key membership in `flat_base_deps` after the whole fold. -/
theorem postFold_flat_mem (m : DepsMap) (base : PStr) :
    ∀ (ad : AllDeps) (st : PostState) (R : PStr),
      dmem ((ad.foldl (flattenPostDep m base) st).flat) R = true ↔
        (dmem st.flat R = true ∨ adHasRoot base ad R = true) := by
  intro ad
  induction ad with
  | nil =>
    intro st R
    have hroot : adHasRoot base [] R = false := rfl
    simp [List.foldl_nil, hroot]
  | cons kv rest ih =>
    intro st R
    rw [List.foldl_cons, ih, postDep_flat_mem, adHasRoot_cons]
    constructor
    · intro h
      rcases h with (h | h) | h
      · exact Or.inl h
      · refine Or.inr ?_
        simp only [Bool.or_eq_true, decide_eq_true_eq]
        exact Or.inl h
      · refine Or.inr ?_
        simp only [Bool.or_eq_true]
        exact Or.inr h
    · intro h
      rcases h with h | h
      · exact Or.inl (Or.inl h)
      · simp only [Bool.or_eq_true, decide_eq_true_eq] at h
        rcases h with h | h
        · exact Or.inl (Or.inr h)
        · exact Or.inr h

end PostCharacterizationC

/-! ## Prefix/root lemmas and the C1 and C4 claim theorems -/

/-- The root segment contains no separator. -/
theorem sep_not_mem_pyPartFst (c : Char) (s : PStr) : c ∉ pyPartFst c s := by
  intro h
  have := List.mem_takeWhile_imp h
  simp at this

/-- For a separator-free `base`, being a string prefix of `dep` is the
same as being a string prefix of `dep`'s root segment. -/
theorem isPrefixOf_pyPartFst (c : Char) (base : PStr) (hfree : c ∉ base) :
    ∀ dep : PStr, base.isPrefixOf dep = base.isPrefixOf (pyPartFst c dep) := by
  induction base with
  | nil => intro dep; simp [List.isPrefixOf]
  | cons b bs ih =>
    intro dep
    have hb : b ≠ c := fun hh => hfree (by simp [hh])
    have hbs : c ∉ bs := fun hh => hfree (List.mem_cons.mpr (Or.inr hh))
    cases dep with
    | nil => simp [List.isPrefixOf, pyPartFst]
    | cons d ds =>
      by_cases hd : d = c
      · subst hd
        have hroot : pyPartFst d (d :: ds) = [] := by
          simp [pyPartFst, List.takeWhile]
        rw [hroot]
        have hbd : (b == d) = false := by
          simp [hb]
        simp [List.isPrefixOf, hbd]
      · have hroot : pyPartFst c (d :: ds) = d :: pyPartFst c ds := by
          simp [pyPartFst, List.takeWhile, hd]
        rw [hroot]
        simp only [List.isPrefixOf]
        rw [ih hbs ds]

/-- The C4 counterexample dependency map: the target `foo` has the single
third-party dep `foobar`, whose root differs from `foo` but is
string-prefixed by it. -/
def prefixCollisionMap : DepsMap := [(pstr "foo", [(pstr "foobar", false)])]

/-- C4 counterexample: `foobar`'s root segment is not equal to the
tracked root `foo`, yet the flattener excludes it from `foo`'s closure
(the result has no keys at all) because the exclusion test is
`dep.startswith(mod_base_name)` rather than root equality. -/
theorem flattener_excludes_non_ancestor_string_prefix :
    (pstr "foobar") ∈ dkeys (flattenAllDeps (pstr "foo") prefixCollisionMap []) ∧
    pyPartFst '.' (pstr "foobar") ≠ pstr "foo" ∧
    dkeys (flattenDeps (pstr "foo") prefixCollisionMap []).1 = [] := by
  decide

/-- C4 (amended): the flattener excludes from the closure exactly those
dependency names of which the target's root segment is a **string
prefix** (so names sharing the root as a proper string prefix but not as
a dotted ancestor are excluded too, while every non-prefixed dep's root
appears in the closure); and the parent-direct-dep augmentation records
an entry only for deps not string-prefixed by the module's root
segment. -/
theorem flattener_excludes_exactly_string_prefixed (T : PStr) (m : DepsMap) (pdd : PDD)
    (dep : PStr) (h : dep ∈ dkeys (flattenAllDeps T m pdd)) :
    ((pyPartFst '.' dep ∈ dkeys (flattenDeps T m pdd).1) ↔
      ¬ (pyPartFst '.' T).isPrefixOf dep) ∧
    (∀ (modName parentModName : PStr) (st : AugState) (dp : PStr × Bool),
      (augDepStep modName (pyPartFst '.' modName) parentModName st dp).pdd ≠ st.pdd →
      ¬ (pyPartFst '.' modName).isPrefixOf dp.1) := by
  constructor
  · have hbase : '.' ∉ pyPartFst '.' T := sep_not_mem_pyPartFst '.' T
    have hkeys : ∀ R, R ∈ dkeys (flattenDeps T m pdd).1 ↔
        adHasRoot (pyPartFst '.' T) (flattenAllDeps T m pdd) R = true := by
      intro R
      have h1 := postFold_flat_mem m (pyPartFst '.' T) (flattenAllDeps T m pdd)
        ⟨[], []⟩ R
      have h2 : dmem (⟨[], []⟩ : PostState).flat R = false := rfl
      rw [h2] at h1
      simp only [Bool.false_eq_true, false_or] at h1
      rw [← dmem_iff_mem_dkeys]
      exact h1
    rw [hkeys]
    obtain ⟨kv0, hkv0, hkv0eq⟩ := List.mem_map.mp h
    constructor
    · intro hroot
      simp only [adHasRoot, List.any_eq_true, decide_eq_true_eq] at hroot
      obtain ⟨kv, _, hkvpre, hkvroot⟩ := hroot
      intro hpre
      apply hkvpre
      rw [isPrefixOf_pyPartFst '.' _ hbase kv.1, hkvroot,
        ← isPrefixOf_pyPartFst '.' _ hbase dep]
      exact hpre
    · intro hpre
      simp only [adHasRoot, List.any_eq_true, decide_eq_true_eq]
      refine ⟨kv0, hkv0, ?_, by rw [hkv0eq]⟩
      rw [hkv0eq]
      simpa using hpre
  · intro modName parentModName st dp hch
    intro hpre
    apply hch
    unfold augDepStep
    rw [if_neg]
    intro hcond
    exact absurd hpre (by simpa using hcond.1)

/-- Witness for the amended C4 theorem at a concrete input: `alog` is not
string-prefixed by the root `t`, and its root is in the closure. -/
theorem flattener_excludes_exactly_string_prefixed_witness :
    (pyPartFst '.' (pstr "alog") ∈
      dkeys (flattenDeps (pstr "t") [(pstr "t", [(pstr "alog", false)])] []).1) ↔
      ¬ (pyPartFst '.' (pstr "t")).isPrefixOf (pstr "alog") :=
  (flattener_excludes_exactly_string_prefixed (pstr "t")
    [(pstr "t", [(pstr "alog", false)])] [] (pstr "alog") (by decide)).1

/-- C1: for every queried target `T` and every third-party root `R` in
`T`'s flattened closure, the reported optional flag is `true` iff every
witness recorded for `R` carries at least one optional edge; hence an
optional `R` is not in the required (non-optional) closure of `T`. -/
theorem flatten_optional_iff_all_witnesses_optional (T : PStr) (m : DepsMap) (pdd : PDD)
    (R : PStr) (h : R ∈ dkeys (flattenDeps T m pdd).1) :
    ((dget? (flattenDeps T m pdd).2 R = some true) ↔
      ∀ w ∈ witnessList (pyPartFst '.' T) (flattenAllDeps T m pdd) R,
        pathOptional m w.2 w.1 = true) ∧
    (dget? (flattenDeps T m pdd).2 R = some true →
      ¬ requiredClosure m (pyPartFst '.' T) (flattenAllDeps T m pdd) R) := by
  have hbase : pyPartFst '.' T = pyPartFst '.' T := rfl
  have hroot : adHasRoot (pyPartFst '.' T) (flattenAllDeps T m pdd) R = true := by
    have h1 := postFold_flat_mem m (pyPartFst '.' T) (flattenAllDeps T m pdd) ⟨[], []⟩ R
    have h2 : dmem (⟨[], []⟩ : PostState).flat R = false := rfl
    rw [h2] at h1
    simp only [Bool.false_eq_true, false_or] at h1
    exact h1.mp ((dmem_iff_mem_dkeys _ _).mpr h)
  have hov := postFold_optVals m (pyPartFst '.' T) (flattenAllDeps T m pdd) ⟨[], []⟩ R
  have h0 : dget? (⟨[], []⟩ : PostState).optVals R = none := rfl
  rw [h0] at hov
  simp only [hroot, if_true] at hov
  have hmap := dget?_mapVal
    ((flattenAllDeps T m pdd).foldl (flattenPostDep m (pyPartFst '.' T)) ⟨[], []⟩).optVals R
    fun _ l => l.all fun v => v.1
  have hfinal : dget? (flattenDeps T m pdd).2 R =
      some ((witnessAnnots m (pyPartFst '.' T) (flattenAllDeps T m pdd) R).all
        fun v => v.1) := by
    show dget? ((((flattenAllDeps T m pdd).foldl (flattenPostDep m (pyPartFst '.' T))
      ⟨[], []⟩).optVals).map fun kv => (kv.1, kv.2.all fun v => v.1)) R = _
    rw [hmap, hov]
    rfl
  have hiff : (dget? (flattenDeps T m pdd).2 R = some true) ↔
      ∀ w ∈ witnessList (pyPartFst '.' T) (flattenAllDeps T m pdd) R,
        pathOptional m w.2 w.1 = true := by
    rw [hfinal]
    constructor
    · intro hall
      have hall' := Option.some.inj hall
      intro w hw
      have := List.all_eq_true.mp hall' (pathOptional m w.2 w.1, w.2)
        (by
          unfold witnessAnnots
          exact List.mem_map.mpr ⟨w, hw, rfl⟩)
      simpa using this
    · intro hall
      congr 1
      rw [List.all_eq_true]
      intro v hv
      unfold witnessAnnots at hv
      obtain ⟨w, hw, hveq⟩ := List.mem_map.mp hv
      rw [← hveq]
      simpa using hall w hw
  refine ⟨hiff, ?_⟩
  intro htrue hreq
  obtain ⟨w, hw, hwopt⟩ := hreq
  have := hiff.mp htrue w hw
  rw [this] at hwopt
  exact absurd hwopt (by decide)

/-- Witness for the C1 theorem at a concrete input: a target whose only
dep is imported behind a guard is reported optional and every recorded
witness carries an optional edge. -/
theorem flatten_optional_iff_all_witnesses_optional_witness :
    ((dget? (flattenDeps (pstr "t") [(pstr "t", [(pstr "alog", true)])] []).2
        (pstr "alog") = some true) ↔
      ∀ w ∈ witnessList (pyPartFst '.' (pstr "t"))
        (flattenAllDeps (pstr "t") [(pstr "t", [(pstr "alog", true)])] []) (pstr "alog"),
        pathOptional [(pstr "t", [(pstr "alog", true)])] w.2 w.1 = true) ∧
    (dget? (flattenDeps (pstr "t") [(pstr "t", [(pstr "alog", true)])] []).2
        (pstr "alog") = some true →
      ¬ requiredClosure [(pstr "t", [(pstr "alog", true)])] (pyPartFst '.' (pstr "t"))
        (flattenAllDeps (pstr "t") [(pstr "t", [(pstr "alog", true)])] []) (pstr "alog")) :=
  flatten_optional_iff_all_witnesses_optional (pstr "t")
    [(pstr "t", [(pstr "alog", true)])] [] (pstr "alog") (by decide)

/-! ## Claim C3 -/

/-- The scanner state after the first `k` lines. -/
def scanStateAt (sysMods : Dict PyModule) (mod : PyModule) (lines : List DisLine)
    (k : Nat) : ScanState :=
  (scanLines sysMods mod scanInit (lines.take k)).1

/-- Scanning a concatenation threads the state. -/
theorem scanLines_state_append (sysMods : Dict PyModule) (mod : PyModule) :
    ∀ (a b : List DisLine) (st : ScanState),
      (scanLines sysMods mod st (a ++ b)).1 =
        (scanLines sysMods mod (scanLines sysMods mod st a).1 b).1 := by
  intro a
  induction a with
  | nil => intro b st; rfl
  | cons l rest ih =>
    intro b st
    show (scanLines sysMods mod (scanLine sysMods mod st l).1 (rest ++ b)).1 = _
    rw [ih]
    rfl

/-- The new open-guard set of one scan step: the exact-offset closing
followed by the possible `SETUP_*` opening. -/
theorem scanLine_openTries (sysMods : Dict PyModule) (mod : PyModule) (st : ScanState)
    (l : DisLine) :
    (scanLine sysMods mod st l).1.openTries =
      if l.opcode = pstr "SETUP_FINALLY" ∨ l.opcode = pstr "SETUP_EXCEPT"
      then setAdd (closeTries st.openTries l.offset) (setupEnd l.arg)
      else closeTries st.openTries l.offset := by
  unfold scanLine
  by_cases h1 : l.opcode = pstr "LOAD_CONST"
  · rw [if_pos h1]
    have : ¬ (l.opcode = pstr "SETUP_FINALLY" ∨ l.opcode = pstr "SETUP_EXCEPT") := by
      rw [h1]; decide
    rw [if_neg this]
  · rw [if_neg h1]
    by_cases h2 : l.opcode = pstr "IMPORT_NAME"
    · rw [if_pos h2]
      have : ¬ (l.opcode = pstr "SETUP_FINALLY" ∨ l.opcode = pstr "SETUP_EXCEPT") := by
        rw [h2]; decide
      rw [if_neg this]
    · rw [if_neg h2]
      by_cases h3 : l.opcode = pstr "IMPORT_FROM"
      · rw [if_pos h3]
        have : ¬ (l.opcode = pstr "SETUP_FINALLY" ∨ l.opcode = pstr "SETUP_EXCEPT") := by
          rw [h3]; decide
        rw [if_neg this]
      · rw [if_neg h3]

/-- The guarded flag of an emission records whether the post-step
open-guard set is nonempty. -/
theorem scanLine_emission_guarded (sysMods : Dict PyModule) (mod : PyModule)
    (st : ScanState) (l : DisLine) (ev : ImportEvent)
    (h : (scanLine sysMods mod st l).2 = some ev) :
    ev.guarded = ¬ ((scanLine sysMods mod st l).1.openTries).isEmpty := by
  unfold scanLine at h ⊢
  by_cases h1 : l.opcode = pstr "LOAD_CONST"
  · rw [if_pos h1] at h
    simp at h
  · rw [if_neg h1] at h ⊢
    by_cases h2 : l.opcode = pstr "IMPORT_NAME"
    · rw [if_pos h2] at h
      simp at h
    · rw [if_neg h2] at h ⊢
      by_cases h3 : l.opcode = pstr "IMPORT_FROM"
      · rw [if_pos h3] at h
        simp at h
      · rw [if_neg h3] at h ⊢
        by_cases h4 : st.openImport
        · simp only [h4, if_true] at h
          obtain rfl := Option.some.inj h
          simp
        · simp [h4] at h

/-- Membership in `setAdd`. -/
theorem mem_setAdd {α : Type} [DecidableEq α] (s : List α) (x y : α) :
    y ∈ setAdd s x ↔ (y ∈ s ∨ y = x) := by
  unfold setAdd
  by_cases h : x ∈ s
  · simp only [h, if_true]
    constructor
    · intro hy; exact Or.inl hy
    · intro hy
      rcases hy with hy | hy
      · exact hy
      · rw [hy]; exact h
  · simp [h]

/-- `setAdd` preserves duplicate-freeness. -/
theorem nodup_setAdd {α : Type} [DecidableEq α] (s : List α) (x : α) (h : s.Nodup) :
    (setAdd s x).Nodup := by
  unfold setAdd
  by_cases hx : x ∈ s
  · simpa [hx]
  · simp only [hx, if_false]
    rw [List.nodup_append]
    exact ⟨h, List.nodup_singleton x, by simpa using hx⟩

/-- `closeTries` preserves duplicate-freeness. -/
theorem nodup_closeTries (tries : List Nat) (off : Nat) (h : tries.Nodup) :
    (closeTries tries off).Nodup := by
  unfold closeTries
  by_cases hm : off ∈ tries
  · simpa [hm] using h.erase off
  · simpa [hm] using h

/-- Well-formedness of a disassembled instruction stream, as produced by
`dis` on a real code object: offsets strictly increase down the listing,
and every `SETUP_FINALLY`/`SETUP_EXCEPT` end target is the offset of a
(later) instruction in the stream. -/
def WFStream (lines : List DisLine) : Prop :=
  List.Pairwise (fun a b => a.offset < b.offset) lines ∧
  ∀ l ∈ lines, (l.opcode = pstr "SETUP_FINALLY" ∨ l.opcode = pstr "SETUP_EXCEPT") →
    (setupEnd l.arg ∈ lines.map DisLine.offset ∧ l.offset < setupEnd l.arg)

/-- On a well-formed stream, every open guard end-offset is the offset of
a line not yet processed (hence exceeds every processed offset), and the
open-guard set has no duplicates. -/
theorem scan_openTries_invariant (sysMods : Dict PyModule) (mod : PyModule)
    (lines : List DisLine) (hwf : WFStream lines) :
    ∀ k, k ≤ lines.length →
      ((scanStateAt sysMods mod lines k).openTries.Nodup ∧
       ∀ e ∈ (scanStateAt sysMods mod lines k).openTries,
         ∃ j, ∃ hj : j < lines.length, k ≤ j ∧ (lines.get ⟨j, hj⟩).offset = e) := by
  intro k
  induction k with
  | zero =>
    intro _
    constructor
    · exact List.nodup_nil
    · intro e he
      simp [scanStateAt, scanLines, scanInit] at he
  | succ k ih =>
    intro hk1
    have hk : k < lines.length := Nat.lt_of_succ_le hk1
    obtain ⟨ihnd, ihfut⟩ := ih (Nat.le_of_lt hk)
    have hstate : scanStateAt sysMods mod lines (k + 1) =
        (scanLine sysMods mod (scanStateAt sysMods mod lines k)
          (lines.get ⟨k, hk⟩)).1 := by
      unfold scanStateAt
      rw [List.take_succ, List.getElem?_eq_getElem hk]
      rw [scanLines_state_append]
      rfl
    have hclose : ∀ e ∈ closeTries (scanStateAt sysMods mod lines k).openTries
        (lines.get ⟨k, hk⟩).offset,
        e ∈ (scanStateAt sysMods mod lines k).openTries ∧
          e ≠ (lines.get ⟨k, hk⟩).offset := by
      intro e he
      unfold closeTries at he
      by_cases hm : (lines.get ⟨k, hk⟩).offset ∈ (scanStateAt sysMods mod lines k).openTries
      · rw [if_pos hm] at he
        have := (List.Nodup.mem_erase_iff ihnd).mp he
        exact ⟨this.2, this.1⟩
      · rw [if_neg hm] at he
        exact ⟨he, fun hh => hm (hh ▸ he)⟩
    have hfut' : ∀ e ∈ closeTries (scanStateAt sysMods mod lines k).openTries
        (lines.get ⟨k, hk⟩).offset,
        ∃ j, ∃ hj : j < lines.length, k + 1 ≤ j ∧ (lines.get ⟨j, hj⟩).offset = e := by
      intro e he
      obtain ⟨hin, hne⟩ := hclose e he
      obtain ⟨j, hj, hkj, hoff⟩ := ihfut e hin
      refine ⟨j, hj, ?_, hoff⟩
      rcases Nat.lt_or_ge j (k + 1) with h | h
      · exfalso
        have hjk : j = k := by omega
        subst hjk
        exact hne (by rw [← hoff])
      · exact h
    rw [hstate, scanLine_openTries]
    by_cases hsetup : (lines.get ⟨k, hk⟩).opcode = pstr "SETUP_FINALLY" ∨
        (lines.get ⟨k, hk⟩).opcode = pstr "SETUP_EXCEPT"
    · rw [if_pos hsetup]
      obtain ⟨hendmem, hendgt⟩ := hwf.2 (lines.get ⟨k, hk⟩)
        (List.get_mem lines k hk) hsetup
      constructor
      · exact nodup_setAdd _ _ (nodup_closeTries _ _ ihnd)
      · intro e he
        rcases (mem_setAdd _ _ _).mp he with he | he
        · exact hfut' e he
        · subst he
          obtain ⟨l', hl', hoffeq⟩ := List.mem_map.mp hendmem
          obtain ⟨n, hn⟩ := List.mem_iff_get.mp hl'
          refine ⟨n.1, n.2, ?_, by rw [hn, hoffeq]⟩
          by_contra hlt
          push_neg at hlt
          have hpair := List.pairwise_iff_get.mp hwf.1
          rcases Nat.lt_or_ge n.1 k with hnk | hnk
          · have := hpair n ⟨k, hk⟩ hnk
            rw [hn, hoffeq] at this
            omega
          · have hnk' : n.1 = k := by omega
            have hfin : n = ⟨k, hk⟩ := by
              apply Fin.ext
              exact hnk'
            have : l'.offset = (lines.get ⟨k, hk⟩).offset := by
              rw [← hn, hfin]
            omega
    · rw [if_neg hsetup]
      exact ⟨nodup_closeTries _ _ ihnd, hfut'⟩

/-- C3: on a well-formed stream, every open guarded-region end-offset
that is ≤ the current instruction's offset has been removed from the
open-guard set before the instruction's import (if any) is emitted — the
surviving open guards all end strictly after the current offset — and an
emission is marked guarded only when some still-open guard (ending
strictly after the current offset) remains. -/
theorem guard_regions_closed_before_emission (sysMods : Dict PyModule) (mod : PyModule)
    (lines : List DisLine) (hwf : WFStream lines) (k : Nat) (hk : k < lines.length) :
    (∀ e ∈ closeTries (scanStateAt sysMods mod lines k).openTries
        (lines.get ⟨k, hk⟩).offset, (lines.get ⟨k, hk⟩).offset < e) ∧
    (∀ ev, (scanLine sysMods mod (scanStateAt sysMods mod lines k)
        (lines.get ⟨k, hk⟩)).2 = some ev → ev.guarded = true →
      ∃ e, e ∈ (scanLine sysMods mod (scanStateAt sysMods mod lines k)
        (lines.get ⟨k, hk⟩)).1.openTries ∧ (lines.get ⟨k, hk⟩).offset < e) := by
  obtain ⟨ihnd, ihfut⟩ :=
    scan_openTries_invariant sysMods mod lines hwf k (Nat.le_of_lt hk)
  have hpair := List.pairwise_iff_get.mp hwf.1
  have hconj1 : ∀ e ∈ closeTries (scanStateAt sysMods mod lines k).openTries
      (lines.get ⟨k, hk⟩).offset, (lines.get ⟨k, hk⟩).offset < e := by
    intro e he
    have hmem : e ∈ (scanStateAt sysMods mod lines k).openTries ∧
        e ≠ (lines.get ⟨k, hk⟩).offset := by
      unfold closeTries at he
      by_cases hm : (lines.get ⟨k, hk⟩).offset ∈
          (scanStateAt sysMods mod lines k).openTries
      · rw [if_pos hm] at he
        have := (List.Nodup.mem_erase_iff ihnd).mp he
        exact ⟨this.2, this.1⟩
      · rw [if_neg hm] at he
        exact ⟨he, fun hh => hm (hh ▸ he)⟩
    obtain ⟨j, hj, hkj, hoff⟩ := ihfut e hmem.1
    rcases Nat.lt_or_ge k j with h | h
    · have := hpair ⟨k, hk⟩ ⟨j, hj⟩ h
      rw [hoff] at this
      exact this
    · exfalso
      have hjk : j = k := by omega
      subst hjk
      exact hmem.2 (by rw [← hoff])
  refine ⟨hconj1, ?_⟩
  have hall : ∀ e ∈ (scanLine sysMods mod (scanStateAt sysMods mod lines k)
      (lines.get ⟨k, hk⟩)).1.openTries, (lines.get ⟨k, hk⟩).offset < e := by
    intro e he
    rw [scanLine_openTries] at he
    by_cases hsetup : (lines.get ⟨k, hk⟩).opcode = pstr "SETUP_FINALLY" ∨
        (lines.get ⟨k, hk⟩).opcode = pstr "SETUP_EXCEPT"
    · rw [if_pos hsetup] at he
      rcases (mem_setAdd _ _ _).mp he with he | he
      · exact hconj1 e he
      · subst he
        exact (hwf.2 (lines.get ⟨k, hk⟩) (List.get_mem lines k hk) hsetup).2
    · rw [if_neg hsetup] at he
      exact hconj1 e he
  intro ev hev hg
  have hgl := scanLine_emission_guarded sysMods mod
    (scanStateAt sysMods mod lines k) (lines.get ⟨k, hk⟩) ev hev
  rw [hg] at hgl
  have hne : (scanLine sysMods mod (scanStateAt sysMods mod lines k)
      (lines.get ⟨k, hk⟩)).1.openTries ≠ [] := by
    intro hnil
    rw [hnil] at hgl
    simp at hgl
  obtain ⟨e, he⟩ := List.exists_mem_of_ne_nil _ hne
  exact ⟨e, he, hall e he⟩

/-- Witness for the C3 theorem: the guard opened at offset 0 (ending at
12) of the two-import stream is already closed when the final import at
offset 18 is emitted. -/
theorem guard_regions_closed_before_emission_witness :
    (∀ e ∈ closeTries (scanStateAt sysModsEx scanMod linesSameTarget 9).openTries
        (linesSameTarget.get ⟨9, by decide⟩).offset,
      (linesSameTarget.get ⟨9, by decide⟩).offset < e) ∧
    (∀ ev, (scanLine sysModsEx scanMod (scanStateAt sysModsEx scanMod linesSameTarget 9)
        (linesSameTarget.get ⟨9, by decide⟩)).2 = some ev → ev.guarded = true →
      ∃ e, e ∈ (scanLine sysModsEx scanMod
        (scanStateAt sysModsEx scanMod linesSameTarget 9)
        (linesSameTarget.get ⟨9, by decide⟩)).1.openTries ∧
        (linesSameTarget.get ⟨9, by decide⟩).offset < e) :=
  guard_regions_closed_before_emission sysModsEx scanMod linesSameTarget
    (by constructor
        · decide
        · decide)
    9 (by decide)

/-! ## Claim C7 -/

section SetupToolsLemmas

theorem mem_pyInsert (x y : PStr) (l : List PStr) : y ∈ pyInsert x l ↔ (y = x ∨ y ∈ l) := by
  induction l with
  | nil => simp [pyInsert]
  | cons z zs ih =>
    unfold pyInsert
    by_cases h : pstrLe x z
    · rw [if_pos h]
      simp
    · rw [if_neg h]
      rw [List.mem_cons, List.mem_cons, ih]
      tauto

theorem mem_pySorted (l : List PStr) (y : PStr) : y ∈ pySorted l ↔ y ∈ l := by
  induction l with
  | nil => simp [pySorted]
  | cons z zs ih =>
    unfold pySorted at ih ⊢
    rw [List.foldr_cons, mem_pyInsert, ih, List.mem_cons]

theorem mem_foldl_setAdd (y : PStr) :
    ∀ (l acc : List PStr), y ∈ l.foldl setAdd acc ↔ (y ∈ acc ∨ y ∈ l) := by
  intro l
  induction l with
  | nil => simp
  | cons z zs ih =>
    intro acc
    rw [List.foldl_cons, ih, mem_setAdd, List.mem_cons]
    tauto

theorem mem_setUnion (a b : List PStr) (y : PStr) :
    y ∈ setUnion a b ↔ (y ∈ a ∨ y ∈ b) := mem_foldl_setAdd y b a

theorem mem_setInter (a b : List PStr) (y : PStr) :
    y ∈ setInter a b ↔ (y ∈ a ∧ y ∈ b) := by
  simp [setInter, List.mem_filter]

theorem mem_setDiff (a b : List PStr) (y : PStr) :
    y ∈ setDiff a b ↔ (y ∈ a ∧ y ∉ b) := by
  simp [setDiff, List.mem_filter]

theorem mem_foldl_setInter (y : PStr) :
    ∀ (vals : List (PStr × List PStr)) (s0 : List PStr),
      y ∈ vals.foldl (fun acc kv => setInter acc kv.2) s0 ↔
        (y ∈ s0 ∧ ∀ kv ∈ vals, y ∈ kv.2) := by
  intro vals
  induction vals with
  | nil => simp
  | cons kv rest ih =>
    intro s0
    rw [List.foldl_cons, ih, mem_setInter]
    constructor
    · intro h
      refine ⟨h.1.1, ?_⟩
      intro kv2 hkv2
      rcases List.mem_cons.mp hkv2 with hh | hh
      · rw [hh]; exact h.1.2
      · exact h.2 kv2 hh
    · intro h
      exact ⟨⟨h.1, h.2 kv (List.mem_cons_self kv rest)⟩,
        fun kv2 hkv2 => h.2 kv2 (List.mem_cons.mpr (Or.inr hkv2))⟩

theorem mem_foldl_setUnion (y : PStr) :
    ∀ (vals : List (PStr × List PStr)) (s0 : List PStr),
      y ∈ vals.foldl (fun acc kv => setUnion acc kv.2) s0 ↔
        (y ∈ s0 ∨ ∃ kv ∈ vals, y ∈ kv.2) := by
  intro vals
  induction vals with
  | nil => simp
  | cons kv rest ih =>
    intro s0
    rw [List.foldl_cons, ih, mem_setUnion]
    constructor
    · intro h
      rcases h with (h | h) | h
      · exact Or.inl h
      · exact Or.inr ⟨kv, List.mem_cons_self kv rest, h⟩
      · obtain ⟨kv2, hkv2, hy⟩ := h
        exact Or.inr ⟨kv2, List.mem_cons.mpr (Or.inr hkv2), hy⟩
    · intro h
      rcases h with h | h
      · exact Or.inl (Or.inl h)
      · obtain ⟨kv2, hkv2, hy⟩ := h
        rcases List.mem_cons.mp hkv2 with hh | hh
        · subst hh
          exact Or.inl (Or.inr hy)
        · exact Or.inr ⟨kv2, hh, hy⟩

/-- Membership in `_get_required_packages_for_imports`. -/
theorem mem_getRequiredPackages (m2p : Dict (List PStr)) (y : PStr) :
    ∀ (imports : List PStr) (acc : List PStr),
      y ∈ imports.foldl
        (fun acc md =>
          match dget? m2p md with
          | some pkgs => pkgs.foldl setAdd acc
          | none => setAdd acc md) acc ↔
      (y ∈ acc ∨ ∃ md ∈ imports,
        (dget? m2p md = none ∧ y = md) ∨
        (∃ pkgs, dget? m2p md = some pkgs ∧ y ∈ pkgs)) := by
  intro imports
  induction imports with
  | nil => simp
  | cons md rest ih =>
    intro acc
    rw [List.foldl_cons, ih]
    cases hmd : dget? m2p md with
    | none =>
      rw [mem_setAdd]
      constructor
      · intro h
        rcases h with (h | h) | h
        · exact Or.inl h
        · exact Or.inr ⟨md, List.mem_cons_self md rest, Or.inl ⟨hmd, h⟩⟩
        · obtain ⟨md2, hmd2, hy⟩ := h
          exact Or.inr ⟨md2, List.mem_cons.mpr (Or.inr hmd2), hy⟩
      · intro h
        rcases h with h | h
        · exact Or.inl (Or.inl h)
        · obtain ⟨md2, hmd2, hy⟩ := h
          rcases List.mem_cons.mp hmd2 with hh | hh
          · subst hh
            rcases hy with hy | hy
            · exact Or.inl (Or.inr hy.2)
            · obtain ⟨pkgs, hp, _⟩ := hy
              rw [hmd] at hp
              exact absurd hp (by simp)
          · exact Or.inr ⟨md2, hh, hy⟩
    | some pkgs =>
      rw [mem_foldl_setAdd]
      constructor
      · intro h
        rcases h with (h | h) | h
        · exact Or.inl h
        · exact Or.inr ⟨md, List.mem_cons_self md rest, Or.inr ⟨pkgs, hmd, h⟩⟩
        · obtain ⟨md2, hmd2, hy⟩ := h
          exact Or.inr ⟨md2, List.mem_cons.mpr (Or.inr hmd2), hy⟩
      · intro h
        rcases h with h | h
        · exact Or.inl (Or.inl h)
        · obtain ⟨md2, hmd2, hy⟩ := h
          rcases List.mem_cons.mp hmd2 with hh | hh
          · subst hh
            rcases hy with hy | hy
            · rw [hmd] at hy
              exact absurd hy.1 (by simp)
            · obtain ⟨pkgs2, hp, hyp⟩ := hy
              rw [hmd] at hp
              obtain rfl := Option.some.inj hp
              exact Or.inl (Or.inr hyp)
          · exact Or.inr ⟨md2, hh, hy⟩

/-- Elements of `_get_required_packages_for_imports` contain no dash when
the index values and the import names contain none. -/
theorem getRequiredPackages_dash_free (m2p : Dict (List PStr)) (imports : List PStr)
    (hd1 : ∀ kv ∈ m2p, ∀ p ∈ kv.2, '-' ∉ p) (hd2 : ∀ i ∈ imports, '-' ∉ i) :
    ∀ y ∈ getRequiredPackagesForImports m2p imports, '-' ∉ y := by
  intro y hy
  unfold getRequiredPackagesForImports at hy
  rw [mem_pySorted, mem_getRequiredPackages] at hy
  rcases hy with hy | hy
  · simp at hy
  · obtain ⟨md, hmd, hcase⟩ := hy
    rcases hcase with ⟨_, rfl⟩ | ⟨pkgs, hp, hyp⟩
    · exact hd2 y hmd
    · have : (md, pkgs) ∈ m2p := by
        clear hd1 hd2 hmd
        induction m2p with
        | nil => simp [dget?] at hp
        | cons kv rest ih =>
          obtain ⟨k', v'⟩ := kv
          by_cases hk : k' = md
          · subst hk
            simp only [dget?, if_pos rfl] at hp
            obtain rfl := Option.some.inj hp
            exact List.mem_cons_self _ _
          · simp only [dget?, hk, if_false] at hp
            exact List.mem_cons.mpr (Or.inr (ih hp))
      exact hd1 (md, pkgs) this y hyp

/-- Unchanged strings under dash replacement. -/
theorem pyReplace_eq_self_of_not_mem (s : PStr) (h : '-' ∉ s) :
    pyReplace '-' '_' s = s := by
  unfold pyReplace
  induction s with
  | nil => rfl
  | cons c cs ih =>
    have hc : c ≠ '-' := fun hh => h (by simp [hh])
    have hcs : '-' ∉ cs := fun hh => h (List.mem_cons.mpr (Or.inr hh))
    simp [hc, ih hcs]

/-- Membership in `_map_requirements`. -/
theorem mem_mapRequirements (std : Dict PStr) (S : List PStr) (r : PStr) :
    r ∈ mapRequirements std S ↔
      ∃ dep ∈ S, dget? std (pyReplace '-' '_' dep) = some r := by
  unfold mapRequirements
  rw [mem_pySorted, List.mem_map]
  constructor
  · intro h
    obtain ⟨dep, hdep, hr⟩ := h
    rw [List.mem_filter] at hdep
    obtain ⟨hS, hmem⟩ := hdep
    refine ⟨dep, hS, ?_⟩
    simp only [dmem] at hmem
    cases hv : dget? std (pyReplace '-' '_' dep) with
    | none => rw [hv] at hmem; simp at hmem
    | some v =>
      rw [← hr]
      simp [dgetD, hv]
  · intro h
    obtain ⟨dep, hS, hv⟩ := h
    refine ⟨dep, ?_, ?_⟩
    · rw [List.mem_filter]
      exact ⟨hS, by simp [dmem, hv]⟩
    · simp [dgetD, hv]

end SetupToolsLemmas

section DictFoldLemmas

variable {β γ : Type}

/-- Looking up a dict built by assigning `f md` under each key of a key
list. -/
theorem dget?_foldl_dset_fun (f : PStr → β) :
    ∀ (ems : List PStr) (d : Dict β) (X : PStr),
      dget? (ems.foldl (fun d md => dset d md (f md)) d) X =
        if X ∈ ems then some (f X) else dget? d X := by
  intro ems
  induction ems with
  | nil => intro d X; simp
  | cons md rest ih =>
    intro d X
    rw [List.foldl_cons, ih]
    by_cases hX : X ∈ rest
    · rw [if_pos hX, if_pos (List.mem_cons.mpr (Or.inr hX))]
    · rw [if_neg hX]
      by_cases hXmd : X = md
      · subst hXmd
        rw [if_pos (List.mem_cons_self X rest), dget?_dset_self]
      · rw [dget?_dset_ne d md X (f md) hXmd,
          if_neg (by
            intro hc
            rcases List.mem_cons.mp hc with hc | hc
            · exact hXmd hc
            · exact hX hc)]

/-- A successful lookup produces a member entry. -/
theorem mem_of_dget?_eq_some (d : Dict β) (k : PStr) (v : β)
    (h : dget? d k = some v) : (k, v) ∈ d := by
  induction d with
  | nil => simp [dget?] at h
  | cons kv rest ih =>
    obtain ⟨k', v'⟩ := kv
    by_cases hk : k' = k
    · subst hk
      simp only [dget?, if_pos rfl] at h
      obtain rfl := Option.some.inj h
      exact List.mem_cons_self _ _
    · simp only [dget?, hk, if_false] at h
      exact List.mem_cons.mpr (Or.inr (ih h))

/-- Entries of an updated dict come from the old dict or are the new
binding. -/
theorem mem_dset_cases (d : Dict β) (k : PStr) (v : β) (kv : PStr × β)
    (h : kv ∈ dset d k v) : kv ∈ d ∨ kv = (k, v) := by
  have main : ∀ d' : Dict β, kv ∈ dset d' k v → kv ∈ d' ∨ kv = (k, v) := by
    intro d'
    induction d' with
    | nil =>
      intro hh
      simp only [dset, List.mem_singleton] at hh
      exact Or.inr hh
    | cons hd rest ih =>
      obtain ⟨k', v'⟩ := hd
      intro hh
      by_cases hk : k' = k
      · subst hk
        simp only [dset, eq_self_iff_true, if_true, List.mem_cons] at hh
        rcases hh with h1 | h1
        · exact Or.inr h1
        · exact Or.inl (List.mem_cons.mpr (Or.inr h1))
      · simp only [dset, hk, if_false, List.mem_cons] at hh
        rcases hh with h1 | h1
        · exact Or.inl (List.mem_cons.mpr (Or.inl h1))
        · rcases ih h1 with h2 | h2
          · exact Or.inl (List.mem_cons.mpr (Or.inr h2))
          · exact Or.inr h2
  exact main d h

/-- Entries of an entrywise-rebuilt dict trace back to source entries or
the seed. -/
theorem mem_foldl_dset_entry_cases (g : PStr → β → γ) :
    ∀ (src : List (PStr × β)) (d : Dict γ) (kv : PStr × γ),
      kv ∈ src.foldl (fun acc e => dset acc e.1 (g e.1 e.2)) d →
      kv ∈ d ∨ ∃ e ∈ src, kv = (e.1, g e.1 e.2) := by
  intro src
  induction src with
  | nil => intro d kv h; exact Or.inl h
  | cons e rest ih =>
    intro d kv h
    rw [List.foldl_cons] at h
    rcases ih _ _ h with hh | hh
    · rcases mem_dset_cases _ _ _ _ hh with hd | hd
      · exact Or.inl hd
      · exact Or.inr ⟨e, List.mem_cons_self e rest, hd⟩
    · obtain ⟨e2, he2, hkv⟩ := hh
      exact Or.inr ⟨e2, List.mem_cons.mpr (Or.inr he2), hkv⟩

/-- Key list of an update: unchanged when the key is present, appended
otherwise. -/
theorem dkeys_dset_eq (d : Dict β) (k : PStr) (v : β) :
    dkeys (dset d k v) = if dmem d k then dkeys d else dkeys d ++ [k] := by
  induction d with
  | nil => simp [dset, dmem, dget?, dkeys]
  | cons kv rest ih =>
    obtain ⟨k', v'⟩ := kv
    by_cases hk : k' = k
    · subst hk
      simp [dset, dmem, dget?, dkeys]
    · have hmem : dmem ((k', v') :: rest) k = dmem rest k := by
        simp [dmem, dget?, hk]
      rw [hmem]
      by_cases hm : dmem rest k
      · simp only [dset, hk, if_false, dkeys, List.map_cons, hm, if_true]
        rw [hm, if_pos rfl] at ih
        simp only [dkeys] at ih
        rw [ih]
      · simp only [dset, hk, if_false, dkeys, List.map_cons]
        rw [if_neg (by simpa using hm)]
        have := ih
        rw [if_neg (by simpa using hm)] at this
        simp only [dkeys] at this
        rw [this]
        rfl

/-- An entrywise rebuild preserves duplicate-free keys. -/
theorem nodup_dkeys_foldl_dset_entry (g : PStr → β → γ) :
    ∀ (src : List (PStr × β)) (d : Dict γ), (dkeys d).Nodup →
      (dkeys (src.foldl (fun acc e => dset acc e.1 (g e.1 e.2)) d)).Nodup := by
  intro src
  induction src with
  | nil => intro d h; exact h
  | cons e rest ih =>
    intro d h
    rw [List.foldl_cons]
    apply ih
    rw [dkeys_dset_eq]
    by_cases hm : dmem d e.1
    · rw [if_pos hm]; exact h
    · rw [if_neg hm, List.nodup_append]
      refine ⟨h, List.nodup_singleton _, ?_⟩
      intro a ha hb
      rw [List.mem_singleton] at hb
      subst hb
      exact hm ((dmem_iff_mem_dkeys d e.1).mpr ha)

/-- A key-list rebuild (constant-per-key values) preserves duplicate-free
keys. -/
theorem nodup_dkeys_foldl_dset_fun (f : PStr → β) :
    ∀ (ems : List PStr) (d : Dict β), (dkeys d).Nodup →
      (dkeys (ems.foldl (fun d md => dset d md (f md)) d)).Nodup := by
  intro ems
  induction ems with
  | nil => intro d h; exact h
  | cons md rest ih =>
    intro d h
    rw [List.foldl_cons]
    apply ih
    rw [dkeys_dset_eq]
    by_cases hm : dmem d md
    · rw [if_pos hm]; exact h
    · rw [if_neg hm, List.nodup_append]
      refine ⟨h, List.nodup_singleton _, ?_⟩
      intro a ha hb
      rw [List.mem_singleton] at hb
      rw [hb] at ha
      exact hm ((dmem_iff_mem_dkeys d md).mpr ha)

/-- Looking up an entrywise rebuild of a dict with duplicate-free keys. -/
theorem dget?_foldl_dset_entry (g : PStr → β → γ) :
    ∀ (src : List (PStr × β)) (d : Dict γ) (X : PStr), (src.map Prod.fst).Nodup →
      dget? (src.foldl (fun acc e => dset acc e.1 (g e.1 e.2)) d) X =
        match dget? src X with
        | some v => some (g X v)
        | none => dget? d X := by
  intro src
  induction src with
  | nil => intro d X _; simp [dget?]
  | cons e rest ih =>
    intro d X hnd
    obtain ⟨e1, e2⟩ := e
    rw [List.foldl_cons]
    have hnd' : (rest.map Prod.fst).Nodup := (List.nodup_cons.mp hnd).2
    rw [ih _ _ hnd']
    by_cases hX : e1 = X
    · subst hX
      have hhead : dget? ((e1, e2) :: rest) e1 = some e2 := by
        simp [dget?]
      have hn1 : e1 ∉ dkeys rest := by
        have hc := hnd
        simp only [List.map_cons, List.nodup_cons] at hc
        exact fun hmem => hc.1 hmem
      have hrest : dget? rest e1 = none := by
        cases hq : dget? rest e1 with
        | none => rfl
        | some w =>
          have hm2 : dmem rest e1 = true := by unfold dmem; rw [hq]; rfl
          exact absurd ((dmem_iff_mem_dkeys rest e1).mp hm2) hn1
      rw [hrest, hhead]
      exact dget?_dset_self d e1 (g e1 e2)
    · simp only [dget?, hX, if_false]
      cases hr : dget? rest X with
      | some v => rfl
      | none => exact dget?_dset_ne d e1 X (g e1 e2) (fun hh => hX hh.symm)

/-- In a dict with duplicate-free keys, every entry is found by lookup. -/
theorem dget?_eq_some_of_mem_nodup (d : Dict β) (kv : PStr × β)
    (hnd : (dkeys d).Nodup) (h : kv ∈ d) : dget? d kv.1 = some kv.2 := by
  have main : ∀ d' : Dict β, (dkeys d').Nodup → kv ∈ d' → dget? d' kv.1 = some kv.2 := by
    intro d'
    induction d' with
    | nil => intro _ hh; exact absurd hh (List.not_mem_nil kv)
    | cons e rest ih =>
      obtain ⟨k', v'⟩ := e
      intro hnd' hh
      simp only [dkeys, List.map_cons, List.nodup_cons] at hnd'
      rcases List.mem_cons.mp hh with h1 | h1
      · rw [h1]
        simp [dget?]
      · have hk : k' ≠ kv.1 := by
          intro he
          exact hnd'.1 (he ▸ List.mem_map_of_mem Prod.fst h1)
        simp only [dget?, hk, if_false]
        exact ih hnd'.2 h1
  exact main d hnd h

/-- Entries of a key-transforming entrywise rebuild trace back to source
entries or the seed. -/
theorem mem_foldl_dset_keymap_cases (t : PStr → PStr) :
    ∀ (src : List (PStr × β)) (d : Dict β) (kv : PStr × β),
      kv ∈ src.foldl (fun acc e => dset acc (t e.1) e.2) d →
      kv ∈ d ∨ ∃ e ∈ src, kv = (t e.1, e.2) := by
  intro src
  induction src with
  | nil => intro d kv h; exact Or.inl h
  | cons e rest ih =>
    intro d kv h
    rw [List.foldl_cons] at h
    rcases ih _ _ h with hh | hh
    · rcases mem_dset_cases _ _ _ _ hh with hd | hd
      · exact Or.inl hd
      · exact Or.inr ⟨e, List.mem_cons_self e rest, hd⟩
    · obtain ⟨e2, he2, hkv⟩ := hh
      exact Or.inr ⟨e2, List.mem_cons.mpr (Or.inr he2), hkv⟩

end DictFoldLemmas

section ReqDashLemmas

/-- No dash survives the dash-to-underscore replacement. -/
theorem dash_not_mem_pyReplace (s : PStr) : '-' ∉ pyReplace '-' '_' s := by
  intro h
  unfold pyReplace at h
  rw [List.mem_map] at h
  obtain ⟨c, _, hc⟩ := h
  by_cases hcc : c = '-'
  · rw [if_pos hcc] at hc
    exact absurd hc (by decide)
  · rw [if_neg hcc] at hc
    exact hcc hc

/-- Keys of the requirements dict are standardized, hence dash-free. -/
theorem dash_not_mem_key_buildRequirements (reqLines : List PStr) :
    ∀ k ∈ dkeys (buildRequirements reqLines), '-' ∉ k := by
  unfold buildRequirements
  have main : ∀ (src : List PStr) (d : Dict PStr),
      (∀ k0 ∈ dkeys d, '-' ∉ k0) →
      ∀ k ∈ dkeys (src.foldl
        (fun d l => dset d (standardizePackageName (reqSplitFirst l)) (pyStrip l)) d),
        '-' ∉ k := by
    intro src
    induction src with
    | nil => intro d hd k hk; exact hd k hk
    | cons l rest ih =>
      intro d hd k hk
      rw [List.foldl_cons] at hk
      refine ih _ ?_ k hk
      intro k0 hk0
      rw [dkeys_dset_eq] at hk0
      by_cases hm : dmem d (standardizePackageName (reqSplitFirst l))
      · rw [if_pos hm] at hk0
        exact hd k0 hk0
      · rw [if_neg hm] at hk0
        rcases List.mem_append.mp hk0 with hh | hh
        · exact hd k0 hh
        · rw [List.mem_singleton] at hh
          rw [hh]
          exact dash_not_mem_pyReplace (pyLower (pyStrip (reqSplitFirst l)))
  exact main _ [] (by intro k0 hk0; exact absurd hk0 (List.not_mem_nil k0))

/-- Values drawn from a dash-free mapping are dash-free. -/
theorem dash_not_mem_dgetD_mapping (mapping : Dict (List PStr))
    (hd2 : ∀ kv ∈ mapping, ∀ i ∈ kv.2, '-' ∉ i) (X : PStr) :
    ∀ i ∈ dgetD mapping X [], '-' ∉ i := by
  intro i hi
  unfold dgetD at hi
  cases hv : dget? mapping X with
  | none =>
    rw [hv] at hi
    exact absurd hi (List.not_mem_nil i)
  | some v =>
    rw [hv] at hi
    simp only [Option.getD_some] at hi
    exact hd2 (X, v) (mem_of_dget?_eq_some mapping X v hv) i hi

end ReqDashLemmas

section C7Helpers

/-- Lookup in the per-extras-module import-set dict built by
`parse_requirements` (setup_tools.py lines 92-96). -/
theorem importSets_dget? (mapping m2p : Dict (List PStr)) (ems : List PStr) (X : PStr) :
    dget? (List.foldl
        (fun d md => dset d md (getRequiredPackagesForImports m2p (dgetD mapping md []))) [] ems) X
      = if X ∈ ems then some (getRequiredPackagesForImports m2p (dgetD mapping X [])) else none := by
  refine Eq.trans (dget?_foldl_dset_fun
    (fun md => getRequiredPackagesForImports m2p (dgetD mapping md [])) ems [] X) ?_
  by_cases hX : X ∈ ems
  · simp only [if_pos hX]
  · simp only [if_neg hX]
    rfl

/-- The import-set dict has duplicate-free keys. -/
theorem importSets_nodup (mapping m2p : Dict (List PStr)) (ems : List PStr) :
    (dkeys (List.foldl
      (fun d md => dset d md (getRequiredPackagesForImports m2p (dgetD mapping md []))) [] ems)).Nodup :=
  nodup_dkeys_foldl_dset_fun
    (fun md => getRequiredPackagesForImports m2p (dgetD mapping md [])) ems [] List.nodup_nil

/-- A dict whose lookups follow a key-list function has exactly the
corresponding entries. -/
theorem dict_mem_iff_of_lookup (ems : List PStr) (G : PStr → List PStr) (D : Dict (List PStr))
    (hnd : (dkeys D).Nodup)
    (hlook : ∀ X, dget? D X = if X ∈ ems then some (G X) else none)
    (kv : PStr × List PStr) :
    kv ∈ D ↔ (kv.1 ∈ ems ∧ kv.2 = G kv.1) := by
  constructor
  · intro h
    have hl := dget?_eq_some_of_mem_nodup D kv hnd h
    rw [hlook] at hl
    by_cases hX : kv.1 ∈ ems
    · rw [if_pos hX] at hl
      exact ⟨hX, (Option.some.inj hl).symm⟩
    · rw [if_neg hX] at hl
      exact absurd hl (by simp)
  · intro h
    have hl : dget? D kv.1 = some kv.2 := by
      rw [hlook, if_pos h.1, h.2]
    exact mem_of_dget?_eq_some D kv.1 kv.2 hl

/-- Lookup in an entrywise value-mapped rebuild of a dict. -/
theorem entryfold_dget?_raw (g : List PStr → List PStr) (D : Dict (List PStr))
    (hnd : (dkeys D).Nodup) (X : PStr) :
    dget? (List.foldl (fun d kv => dset d kv.1 (g kv.2)) [] D) X
      = match dget? D X with
        | some v => some (g v)
        | none => none := by
  refine Eq.trans (dget?_foldl_dset_entry (fun _ v => g v) D [] X hnd) ?_
  cases dget? D X with
  | some v => rfl
  | none => rfl

/-- An entrywise value-mapped rebuild has duplicate-free keys. -/
theorem entryfold_nodup (g : List PStr → List PStr) (D : Dict (List PStr)) :
    (dkeys (List.foldl (fun d kv => dset d kv.1 (g kv.2)) [] D)).Nodup :=
  nodup_dkeys_foldl_dset_entry (fun _ v => g v) D [] List.nodup_nil

/-- Lookup after appending the synthetic `all` entry. -/
theorem append_all_dget? (ems : List PStr) (G : PStr → List PStr) (D : Dict (List PStr))
    (u : List PStr)
    (hlook : ∀ X, dget? D X = if X ∈ ems then some (G X) else none) (X : PStr) :
    dget? (D ++ [(pstr "all", u)]) X
      = if X ∈ ems then some (G X)
        else if X = pstr "all" then some u else none := by
  rw [dget?_append, hlook]
  by_cases hX : X ∈ ems
  · simp only [if_pos hX]
  · simp only [if_neg hX]
    by_cases hA : X = pstr "all"
    · rw [if_pos hA]
      subst hA
      simp [dget?]
    · rw [if_neg hA]
      show dget? [(pstr "all", u)] X = none
      simp only [dget?]
      rw [if_neg fun h => hA h.symm]

/-- Appending the synthetic `all` entry keeps keys duplicate-free when
`all` is not already a key. -/
theorem append_all_nodup (D : Dict (List PStr)) (u : List PStr)
    (hnd : (dkeys D).Nodup) (hno : dget? D (pstr "all") = none) :
    (dkeys (D ++ [(pstr "all", u)])).Nodup := by
  have hk : dkeys (D ++ [(pstr "all", u)]) = dkeys D ++ [pstr "all"] := by
    simp [dkeys]
  rw [hk, List.nodup_append]
  refine ⟨hnd, List.nodup_singleton _, ?_⟩
  intro a ha hb
  rw [List.mem_singleton] at hb
  rw [hb] at ha
  have hm : dmem D (pstr "all") = true := (dmem_iff_mem_dkeys D (pstr "all")).mpr ha
  unfold dmem at hm
  rw [hno] at hm
  exact absurd hm (by decide)

end C7Helpers

/-- Claim C7 (amended): for every accepted input whose extras modules are
given, nonempty, all tracked by the mapping and none literally named
`all`, whose requirement lines have pairwise distinct stripped bodies,
and whose package and import names are dash-free, the `parse_requirements`
partition satisfies the claimed algebra: a requirement lies in the base
list or in some extras group exactly when it lies in the `all` group, and
the base list is disjoint from every extras group. -/
theorem parse_requirements_partition_union_disjoint
    (reqLines : List PStr) (mapping m2p : Dict (List PStr)) (ems : List PStr)
    (base : List PStr) (groups : Dict (List PStr))
    (hne : ems ≠ [])
    (hsub : ∀ md ∈ ems, dmem mapping md = true)
    (hall : pstr "all" ∉ ems)
    (hinj : ∀ e1 ∈ buildRequirements reqLines, ∀ e2 ∈ buildRequirements reqLines,
      (e1 : PStr × PStr).2 = e2.2 → e1.1 = e2.1)
    (hd1 : ∀ kv ∈ m2p, ∀ p ∈ kv.2, '-' ∉ p)
    (hd2 : ∀ kv ∈ mapping, ∀ i ∈ kv.2, '-' ∉ i)
    (hres : parseRequirementsCore (buildRequirements reqLines) mapping (some ems) m2p
      = Except.ok (base, groups)) :
    (∀ r, (r ∈ base ∨ ∃ X ∈ ems, r ∈ dgetD groups X []) ↔
      r ∈ dgetD groups (pstr "all") []) ∧
    (∀ X ∈ ems, ∀ r ∈ base, r ∉ dgetD groups X []) := by
  have hne' : ems.isEmpty = false := by
    cases ems with
    | nil => exact absurd rfl hne
    | cons a l => rfl
  have hmiss : (ems.filter fun md => ¬ dmem mapping md) = [] := by
    rw [List.filter_eq_nil_iff]
    intro md hmd
    simp [hsub md hmd]
  simp only [parseRequirementsCore, hne', Bool.false_eq_true, if_false, hmiss,
    List.isEmpty_nil, not_true, Bool.not_true] at hres
  cases himp : List.foldl
      (fun d md => dset d md (getRequiredPackagesForImports m2p (dgetD mapping md []))) [] ems with
  | nil =>
    rw [himp] at hres
    exact absurd hres (by simp)
  | cons s0 restSets =>
    rw [himp] at hres
    have hISnd : (dkeys ((s0 :: restSets) : Dict (List PStr))).Nodup := by
      rw [← himp]
      exact importSets_nodup mapping m2p ems
    have hISlook : ∀ X, dget? ((s0 :: restSets) : Dict (List PStr)) X
        = if X ∈ ems then some (getRequiredPackagesForImports m2p (dgetD mapping X [])) else none := by
      intro X
      rw [← himp]
      exact importSets_dget? mapping m2p ems X
    have hISmem := dict_mem_iff_of_lookup ems
      (fun X => getRequiredPackagesForImports m2p (dgetD mapping X [])) (s0 :: restSets) hISnd hISlook
    have hcommon : ∀ y, y ∈ List.foldl (fun acc kv => setInter acc kv.2) s0.2 restSets ↔
        ∀ X ∈ ems, y ∈ getRequiredPackagesForImports m2p (dgetD mapping X []) := by
      intro y
      rw [mem_foldl_setInter]
      constructor
      · rintro ⟨h0, hrest⟩ X hX
        have hkv : ((X, getRequiredPackagesForImports m2p (dgetD mapping X []))
            : PStr × List PStr) ∈ (s0 :: restSets) :=
          (hISmem _).mpr ⟨hX, rfl⟩
        rcases List.mem_cons.mp hkv with hh | hh
        · rw [show getRequiredPackagesForImports m2p (dgetD mapping X []) = s0.2 from congrArg Prod.snd hh]
          exact h0
        · exact hrest _ hh
      · intro hA
        obtain ⟨hs0e, hs0v⟩ := (hISmem s0).mp (List.mem_cons_self s0 restSets)
        refine ⟨?_, ?_⟩
        · rw [hs0v]
          exact hA s0.1 hs0e
        · intro kv hkv
          obtain ⟨hke, hkv2⟩ := (hISmem kv).mp (List.mem_cons.mpr (Or.inr hkv))
          rw [hkv2]
          exact hA kv.1 hke
    have hersnd : (dkeys (List.foldl (fun d kv => dset d kv.1 (setDiff kv.2 (List.foldl (fun acc kv => setInter acc kv.2) s0.2 restSets))) [] (s0 :: restSets))).Nodup :=
      entryfold_nodup (fun v => setDiff v (List.foldl (fun acc kv => setInter acc kv.2) s0.2 restSets)) (s0 :: restSets)
    have herslook : ∀ X, dget? (List.foldl (fun d kv => dset d kv.1 (setDiff kv.2 (List.foldl (fun acc kv => setInter acc kv.2) s0.2 restSets))) [] (s0 :: restSets)) X
        = if X ∈ ems then some (setDiff (getRequiredPackagesForImports m2p (dgetD mapping X [])) (List.foldl (fun acc kv => setInter acc kv.2) s0.2 restSets)) else none := by
      intro X
      refine Eq.trans (entryfold_dget?_raw (fun v => setDiff v (List.foldl (fun acc kv => setInter acc kv.2) s0.2 restSets)) (s0 :: restSets) hISnd X) ?_
      rw [hISlook X]
      by_cases hX : X ∈ ems
      · simp only [if_pos hX]
      · simp only [if_neg hX]
    have hersmem := dict_mem_iff_of_lookup ems
      (fun X => setDiff (getRequiredPackagesForImports m2p (dgetD mapping X [])) (List.foldl (fun acc kv => setInter acc kv.2) s0.2 restSets)) (List.foldl (fun d kv => dset d kv.1 (setDiff kv.2 (List.foldl (fun acc kv => setInter acc kv.2) s0.2 restSets))) [] (s0 :: restSets)) hersnd herslook
    have hallt : ∀ y, y ∈ List.foldl (fun acc kv => setUnion acc kv.2) (List.foldl (fun acc kv => setInter acc kv.2) s0.2 restSets) (List.foldl (fun d kv => dset d kv.1 (setDiff kv.2 (List.foldl (fun acc kv => setInter acc kv.2) s0.2 restSets))) [] (s0 :: restSets)) ↔
        (y ∈ List.foldl (fun acc kv => setInter acc kv.2) s0.2 restSets ∨ ∃ X ∈ ems, y ∈ setDiff (getRequiredPackagesForImports m2p (dgetD mapping X [])) (List.foldl (fun acc kv => setInter acc kv.2) s0.2 restSets)) := by
      intro y
      rw [mem_foldl_setUnion]
      constructor
      · rintro (h | ⟨kv, hkv, hy⟩)
        · exact Or.inl h
        · obtain ⟨hke, hkv2⟩ := (hersmem kv).mp hkv
          rw [hkv2] at hy
          exact Or.inr ⟨kv.1, hke, hy⟩
      · rintro (h | ⟨X, hX, hy⟩)
        · exact Or.inl h
        · exact Or.inr ⟨(X, setDiff (getRequiredPackagesForImports m2p (dgetD mapping X [])) (List.foldl (fun acc kv => setInter acc kv.2) s0.2 restSets)), (hersmem _).mpr ⟨hX, rfl⟩, hy⟩
    have hnoall : dmem (List.foldl (fun d kv => dset d kv.1 (setDiff kv.2 (List.foldl (fun acc kv => setInter acc kv.2) s0.2 restSets))) [] (s0 :: restSets)) (pstr "all") = false := by
      unfold dmem
      rw [herslook, if_neg hall]
      rfl
    simp only [hnoall, Bool.false_eq_true, if_false] at hres
    have hpair := Except.ok.inj hres
    rw [Prod.mk.injEq] at hpair
    obtain ⟨hbase, hgroups⟩ := hpair
    have hbase' : base = mapRequirements (List.foldl (fun d kv => dset d (pyReplace '-' '_' kv.1) kv.2) [] (buildRequirements reqLines)) (setUnion (List.foldl (fun acc kv => setInter acc kv.2) s0.2 restSets) (setDiff (getRequiredPackagesForImports m2p (dkeys (buildRequirements reqLines))) (List.foldl (fun acc kv => setUnion acc kv.2) (List.foldl (fun acc kv => setInter acc kv.2) s0.2 restSets) (List.foldl (fun d kv => dset d kv.1 (setDiff kv.2 (List.foldl (fun acc kv => setInter acc kv.2) s0.2 restSets))) [] (s0 :: restSets))))) := hbase.symm
    have hgroups' : groups = List.foldl (fun d kv => dset d kv.1 (mapRequirements (List.foldl (fun d kv => dset d (pyReplace '-' '_' kv.1) kv.2) [] (buildRequirements reqLines)) kv.2)) [] ((List.foldl (fun d kv => dset d kv.1 (setDiff kv.2 (List.foldl (fun acc kv => setInter acc kv.2) s0.2 restSets))) [] (s0 :: restSets)) ++ [(pstr "all", setUnion (List.foldl (fun acc kv => setUnion acc kv.2) (List.foldl (fun acc kv => setInter acc kv.2) s0.2 restSets) (List.foldl (fun d kv => dset d kv.1 (setDiff kv.2 (List.foldl (fun acc kv => setInter acc kv.2) s0.2 restSets))) [] (s0 :: restSets))) (setDiff (getRequiredPackagesForImports m2p (dkeys (buildRequirements reqLines))) (List.foldl (fun acc kv => setUnion acc kv.2) (List.foldl (fun acc kv => setInter acc kv.2) s0.2 restSets) (List.foldl (fun d kv => dset d kv.1 (setDiff kv.2 (List.foldl (fun acc kv => setInter acc kv.2) s0.2 restSets))) [] (s0 :: restSets)))))]) := hgroups.symm
    have hers2look : ∀ X, dget? ((List.foldl (fun d kv => dset d kv.1 (setDiff kv.2 (List.foldl (fun acc kv => setInter acc kv.2) s0.2 restSets))) [] (s0 :: restSets)) ++ [(pstr "all", setUnion (List.foldl (fun acc kv => setUnion acc kv.2) (List.foldl (fun acc kv => setInter acc kv.2) s0.2 restSets) (List.foldl (fun d kv => dset d kv.1 (setDiff kv.2 (List.foldl (fun acc kv => setInter acc kv.2) s0.2 restSets))) [] (s0 :: restSets))) (setDiff (getRequiredPackagesForImports m2p (dkeys (buildRequirements reqLines))) (List.foldl (fun acc kv => setUnion acc kv.2) (List.foldl (fun acc kv => setInter acc kv.2) s0.2 restSets) (List.foldl (fun d kv => dset d kv.1 (setDiff kv.2 (List.foldl (fun acc kv => setInter acc kv.2) s0.2 restSets))) [] (s0 :: restSets)))))]) X
        = if X ∈ ems then some (setDiff (getRequiredPackagesForImports m2p (dgetD mapping X [])) (List.foldl (fun acc kv => setInter acc kv.2) s0.2 restSets))
          else if X = pstr "all" then some (setUnion (List.foldl (fun acc kv => setUnion acc kv.2) (List.foldl (fun acc kv => setInter acc kv.2) s0.2 restSets) (List.foldl (fun d kv => dset d kv.1 (setDiff kv.2 (List.foldl (fun acc kv => setInter acc kv.2) s0.2 restSets))) [] (s0 :: restSets))) (setDiff (getRequiredPackagesForImports m2p (dkeys (buildRequirements reqLines))) (List.foldl (fun acc kv => setUnion acc kv.2) (List.foldl (fun acc kv => setInter acc kv.2) s0.2 restSets) (List.foldl (fun d kv => dset d kv.1 (setDiff kv.2 (List.foldl (fun acc kv => setInter acc kv.2) s0.2 restSets))) [] (s0 :: restSets))))) else none :=
      append_all_dget? ems (fun X => setDiff (getRequiredPackagesForImports m2p (dgetD mapping X [])) (List.foldl (fun acc kv => setInter acc kv.2) s0.2 restSets)) (List.foldl (fun d kv => dset d kv.1 (setDiff kv.2 (List.foldl (fun acc kv => setInter acc kv.2) s0.2 restSets))) [] (s0 :: restSets)) (setUnion (List.foldl (fun acc kv => setUnion acc kv.2) (List.foldl (fun acc kv => setInter acc kv.2) s0.2 restSets) (List.foldl (fun d kv => dset d kv.1 (setDiff kv.2 (List.foldl (fun acc kv => setInter acc kv.2) s0.2 restSets))) [] (s0 :: restSets))) (setDiff (getRequiredPackagesForImports m2p (dkeys (buildRequirements reqLines))) (List.foldl (fun acc kv => setUnion acc kv.2) (List.foldl (fun acc kv => setInter acc kv.2) s0.2 restSets) (List.foldl (fun d kv => dset d kv.1 (setDiff kv.2 (List.foldl (fun acc kv => setInter acc kv.2) s0.2 restSets))) [] (s0 :: restSets))))) herslook
    have hers2nd : (dkeys ((List.foldl (fun d kv => dset d kv.1 (setDiff kv.2 (List.foldl (fun acc kv => setInter acc kv.2) s0.2 restSets))) [] (s0 :: restSets)) ++ [(pstr "all", setUnion (List.foldl (fun acc kv => setUnion acc kv.2) (List.foldl (fun acc kv => setInter acc kv.2) s0.2 restSets) (List.foldl (fun d kv => dset d kv.1 (setDiff kv.2 (List.foldl (fun acc kv => setInter acc kv.2) s0.2 restSets))) [] (s0 :: restSets))) (setDiff (getRequiredPackagesForImports m2p (dkeys (buildRequirements reqLines))) (List.foldl (fun acc kv => setUnion acc kv.2) (List.foldl (fun acc kv => setInter acc kv.2) s0.2 restSets) (List.foldl (fun d kv => dset d kv.1 (setDiff kv.2 (List.foldl (fun acc kv => setInter acc kv.2) s0.2 restSets))) [] (s0 :: restSets)))))])).Nodup :=
      append_all_nodup (List.foldl (fun d kv => dset d kv.1 (setDiff kv.2 (List.foldl (fun acc kv => setInter acc kv.2) s0.2 restSets))) [] (s0 :: restSets)) (setUnion (List.foldl (fun acc kv => setUnion acc kv.2) (List.foldl (fun acc kv => setInter acc kv.2) s0.2 restSets) (List.foldl (fun d kv => dset d kv.1 (setDiff kv.2 (List.foldl (fun acc kv => setInter acc kv.2) s0.2 restSets))) [] (s0 :: restSets))) (setDiff (getRequiredPackagesForImports m2p (dkeys (buildRequirements reqLines))) (List.foldl (fun acc kv => setUnion acc kv.2) (List.foldl (fun acc kv => setInter acc kv.2) s0.2 restSets) (List.foldl (fun d kv => dset d kv.1 (setDiff kv.2 (List.foldl (fun acc kv => setInter acc kv.2) s0.2 restSets))) [] (s0 :: restSets))))) hersnd (by rw [herslook, if_neg hall])
    have hgrplook : ∀ X, dget? groups X
        = match dget? ((List.foldl (fun d kv => dset d kv.1 (setDiff kv.2 (List.foldl (fun acc kv => setInter acc kv.2) s0.2 restSets))) [] (s0 :: restSets)) ++ [(pstr "all", setUnion (List.foldl (fun acc kv => setUnion acc kv.2) (List.foldl (fun acc kv => setInter acc kv.2) s0.2 restSets) (List.foldl (fun d kv => dset d kv.1 (setDiff kv.2 (List.foldl (fun acc kv => setInter acc kv.2) s0.2 restSets))) [] (s0 :: restSets))) (setDiff (getRequiredPackagesForImports m2p (dkeys (buildRequirements reqLines))) (List.foldl (fun acc kv => setUnion acc kv.2) (List.foldl (fun acc kv => setInter acc kv.2) s0.2 restSets) (List.foldl (fun d kv => dset d kv.1 (setDiff kv.2 (List.foldl (fun acc kv => setInter acc kv.2) s0.2 restSets))) [] (s0 :: restSets)))))]) X with
          | some v => some (mapRequirements (List.foldl (fun d kv => dset d (pyReplace '-' '_' kv.1) kv.2) [] (buildRequirements reqLines)) v)
          | none => none := by
      intro X
      rw [hgroups']
      exact entryfold_dget?_raw (mapRequirements (List.foldl (fun d kv => dset d (pyReplace '-' '_' kv.1) kv.2) [] (buildRequirements reqLines))) ((List.foldl (fun d kv => dset d kv.1 (setDiff kv.2 (List.foldl (fun acc kv => setInter acc kv.2) s0.2 restSets))) [] (s0 :: restSets)) ++ [(pstr "all", setUnion (List.foldl (fun acc kv => setUnion acc kv.2) (List.foldl (fun acc kv => setInter acc kv.2) s0.2 restSets) (List.foldl (fun d kv => dset d kv.1 (setDiff kv.2 (List.foldl (fun acc kv => setInter acc kv.2) s0.2 restSets))) [] (s0 :: restSets))) (setDiff (getRequiredPackagesForImports m2p (dkeys (buildRequirements reqLines))) (List.foldl (fun acc kv => setUnion acc kv.2) (List.foldl (fun acc kv => setInter acc kv.2) s0.2 restSets) (List.foldl (fun d kv => dset d kv.1 (setDiff kv.2 (List.foldl (fun acc kv => setInter acc kv.2) s0.2 restSets))) [] (s0 :: restSets)))))]) hers2nd X
    have hgX : ∀ X ∈ ems, dgetD groups X []
        = mapRequirements (List.foldl (fun d kv => dset d (pyReplace '-' '_' kv.1) kv.2) [] (buildRequirements reqLines)) (setDiff (getRequiredPackagesForImports m2p (dgetD mapping X [])) (List.foldl (fun acc kv => setInter acc kv.2) s0.2 restSets)) := by
      intro X hX
      unfold dgetD
      rw [hgrplook X, hers2look X, if_pos hX]
      rfl
    have hgall : dgetD groups (pstr "all") []
        = mapRequirements (List.foldl (fun d kv => dset d (pyReplace '-' '_' kv.1) kv.2) [] (buildRequirements reqLines)) (setUnion (List.foldl (fun acc kv => setUnion acc kv.2) (List.foldl (fun acc kv => setInter acc kv.2) s0.2 restSets) (List.foldl (fun d kv => dset d kv.1 (setDiff kv.2 (List.foldl (fun acc kv => setInter acc kv.2) s0.2 restSets))) [] (s0 :: restSets))) (setDiff (getRequiredPackagesForImports m2p (dkeys (buildRequirements reqLines))) (List.foldl (fun acc kv => setUnion acc kv.2) (List.foldl (fun acc kv => setInter acc kv.2) s0.2 restSets) (List.foldl (fun d kv => dset d kv.1 (setDiff kv.2 (List.foldl (fun acc kv => setInter acc kv.2) s0.2 restSets))) [] (s0 :: restSets))))) := by
      unfold dgetD
      rw [hgrplook _, hers2look _, if_neg hall, if_pos rfl]
      rfl
    have hFdash : ∀ X, ∀ y ∈ getRequiredPackagesForImports m2p (dgetD mapping X []), '-' ∉ y :=
      fun X => getRequiredPackages_dash_free m2p _ hd1 (dash_not_mem_dgetD_mapping mapping hd2 X)
    have hGdash : ∀ y ∈ getRequiredPackagesForImports m2p (dkeys (buildRequirements reqLines)), '-' ∉ y :=
      getRequiredPackages_dash_free m2p _ hd1 (dash_not_mem_key_buildRequirements reqLines)
    have hstd : ∀ (k r : PStr), dget? (List.foldl (fun d kv => dset d (pyReplace '-' '_' kv.1) kv.2) [] (buildRequirements reqLines)) k = some r →
        ∃ e ∈ buildRequirements reqLines, k = pyReplace '-' '_' e.1 ∧ r = e.2 := by
      intro k r hl
      have hm := mem_of_dget?_eq_some (List.foldl (fun d kv => dset d (pyReplace '-' '_' kv.1) kv.2) [] (buildRequirements reqLines)) k r hl
      rcases mem_foldl_dset_keymap_cases (pyReplace '-' '_')
          (buildRequirements reqLines) [] (k, r) hm with hh | hh
      · exact absurd hh (List.not_mem_nil _)
      · obtain ⟨e, he, hkv⟩ := hh
        rw [Prod.mk.injEq] at hkv
        exact ⟨e, he, hkv.1, hkv.2⟩
    refine ⟨?_, ?_⟩
    · intro r
      rw [hgall, hbase', mem_mapRequirements, mem_mapRequirements]
      constructor
      · rintro (hb | ⟨X, hX, hg⟩)
        · obtain ⟨dep, hdep, hlook2⟩ := hb
          refine ⟨dep, ?_, hlook2⟩
          rw [mem_setUnion] at hdep ⊢
          rcases hdep with h | h
          · exact Or.inl ((hallt dep).mpr (Or.inl h))
          · exact Or.inr h
        · rw [hgX X hX, mem_mapRequirements] at hg
          obtain ⟨dep, hdep, hlook2⟩ := hg
          refine ⟨dep, ?_, hlook2⟩
          rw [mem_setUnion]
          exact Or.inl ((hallt dep).mpr (Or.inr ⟨X, hX, hdep⟩))
      · intro hg
        obtain ⟨dep, hdep, hlook2⟩ := hg
        rw [mem_setUnion] at hdep
        rcases hdep with h | h
        · rcases (hallt dep).mp h with h2 | ⟨X, hX, h2⟩
          · exact Or.inl ⟨dep, (mem_setUnion _ _ dep).mpr (Or.inl h2), hlook2⟩
          · refine Or.inr ⟨X, hX, ?_⟩
            rw [hgX X hX, mem_mapRequirements]
            exact ⟨dep, h2, hlook2⟩
        · exact Or.inl ⟨dep, (mem_setUnion _ _ dep).mpr (Or.inr h), hlook2⟩
    · intro X hX r hr hrX
      rw [hbase', mem_mapRequirements] at hr
      rw [hgX X hX, mem_mapRequirements] at hrX
      obtain ⟨dep1, hdep1, hl1⟩ := hr
      obtain ⟨dep2, hdep2, hl2⟩ := hrX
      have hdep2' := (mem_setDiff _ _ dep2).mp hdep2
      have hdash2 : '-' ∉ dep2 := hFdash X dep2 hdep2'.1
      rw [mem_setUnion] at hdep1
      have hdash1 : '-' ∉ dep1 := by
        rcases hdep1 with h | h
        · exact hFdash X dep1 ((hcommon dep1).mp h X hX)
        · exact hGdash dep1 ((mem_setDiff _ _ dep1).mp h).1
      rw [pyReplace_eq_self_of_not_mem dep1 hdash1] at hl1
      rw [pyReplace_eq_self_of_not_mem dep2 hdash2] at hl2
      obtain ⟨e1, he1, hk1, hr1⟩ := hstd dep1 r hl1
      obtain ⟨e2, he2, hk2, hr2⟩ := hstd dep2 r hl2
      have hkey : e1.1 = e2.1 := hinj e1 he1 e2 he2 (hr1.symm.trans hr2)
      have hdd : dep1 = dep2 := by rw [hk1, hk2, hkey]
      rcases hdep1 with h | h
      · exact hdep2'.2 (hdd ▸ h)
      · have h1' := (mem_setDiff _ _ dep1).mp h
        have h2' : dep2 ∈ List.foldl (fun acc kv => setUnion acc kv.2) (List.foldl (fun acc kv => setInter acc kv.2) s0.2 restSets) (List.foldl (fun d kv => dset d kv.1 (setDiff kv.2 (List.foldl (fun acc kv => setInter acc kv.2) s0.2 restSets))) [] (s0 :: restSets)) := (hallt dep2).mpr (Or.inr ⟨X, hX, hdep2⟩)
        exact h1'.2 (hdd ▸ h2')


/-- Counterexample to claim C7 as stated: with an extras module literally
named `all` (here the default extras modules are the mapping keys `all`
and `all.x`), the synthetic union group is suppressed, and the
requirement reached only through `all.x` lies in an extras group but not
in the `all` group, so the union property fails. -/
theorem parse_requirements_all_extras_module_breaks_union :
    parseRequirementsCore (buildRequirements [pstr "a", pstr "b"])
      [(pstr "all", [pstr "a"]), (pstr "all.x", [pstr "b"])] none []
      = Except.ok ([], [(pstr "all", [pstr "a"]), (pstr "all.x", [pstr "b"])]) ∧
    pstr "b" ∈ dgetD [(pstr "all", [pstr "a"]), (pstr "all.x", [pstr "b"])] (pstr "all.x") [] ∧
    pstr "b" ∉ dgetD [(pstr "all", [pstr "a"]), (pstr "all.x", [pstr "b"])] (pstr "all") [] :=
  ⟨rfl, by decide, by decide⟩

/-- Witness for the amended C7 theorem at a concrete input: two extras
modules mapping to `alog` and `yaml`, both listed as requirements. -/
theorem parse_requirements_partition_union_disjoint_witness :
    pstr "yaml" ∈ dgetD [(pstr "m1", [pstr "alog"]), (pstr "m2", [pstr "yaml"]),
      (pstr "all", [pstr "alog", pstr "yaml"])] (pstr "all") [] :=
  ((parse_requirements_partition_union_disjoint [pstr "alog", pstr "yaml"]
      [(pstr "m1", [pstr "alog"]), (pstr "m2", [pstr "yaml"])] []
      [pstr "m1", pstr "m2"] []
      [(pstr "m1", [pstr "alog"]), (pstr "m2", [pstr "yaml"]),
        (pstr "all", [pstr "alog", pstr "yaml"])]
      (by decide) (by decide) (by decide) (by decide) (by decide) (by decide)
      rfl).1 (pstr "yaml")).mp
    (Or.inr ⟨pstr "m2", by decide, by decide⟩)

section AugIdempotence

/-- The `i`-segment ancestor name used by `_find_parent_direct_deps`. -/
def augAnc (X : PStr) (j : Nat) : PStr := pyJoin '.' ((pySplit '.' X).take j)

/-- Number of dotted segments of a module name. -/
def augSegs (X : PStr) : Nat := (pySplit '.' X).length

/-- A false-valued dep entry traces back to a false entry in the original
map, at the module itself or at one of its strict ancestors. -/
def OrigFalse (m : DepsMap) (X dep : PStr) : Prop :=
  (dep, false) ∈ dgetD m X [] ∨
    ∃ j, 1 ≤ j ∧ j < augSegs X ∧ (dep, false) ∈ dgetD m (augAnc X j) []

/-- A present dep traces back to a dep present in the original map, at the
module itself or at one of its strict ancestors. -/
def OrigPres (m : DepsMap) (X dep : PStr) : Prop :=
  dmem (dgetD m X []) dep = true ∨
    ∃ j, 1 ≤ j ∧ j < augSegs X ∧ dmem (dgetD m (augAnc X j) []) dep = true

/-- Invariant of the `_find_parent_direct_deps` sweep relative to the
original map `m`: keys are unchanged, presence of deps only grows,
original false entries persist, and every false value or present dep in
the current map traces back to the original map. -/
def AugInv (m : DepsMap) (d : DepsMap) : Prop :=
  dkeys d = dkeys m ∧
  (∀ X dep, dmem (dgetD m X []) dep = true → dmem (dgetD d X []) dep = true) ∧
  (∀ X dp, dp ∈ dgetD m X [] → dp.2 = false → dp ∈ dgetD d X []) ∧
  (∀ X dp, dp ∈ dgetD d X [] → dp.2 = false → OrigFalse m X dp.1) ∧
  (∀ X dep, dmem (dgetD d X []) dep = true → OrigPres m X dep)

theorem dgetD_dset_self {α : Type} (d : Dict α) (k : PStr) (v v₀ : α) :
    dgetD (dset d k v) k v₀ = v := by
  rw [dgetD, dget?_dset_self]
  rfl

theorem dgetD_dset_ne {α : Type} (d : Dict α) (k k₀ : PStr) (v v₀ : α) (h : k₀ ≠ k) :
    dgetD (dset d k v) k₀ v₀ = dgetD d k₀ v₀ := by
  rw [dgetD, dget?_dset_ne d k k₀ v h]
  rfl

theorem dmem_of_mem_entry {α : Type} (d : Dict α) (e : PStr × α) (h : e ∈ d) :
    dmem d e.1 = true :=
  (dmem_iff_mem_dkeys d e.1).mpr (List.mem_map_of_mem Prod.fst h)

/-- Updating a key whose current value defaults to `true` keeps every
false-valued entry of a boolean dict. -/
theorem mem_dset_of_false (d : Dict Bool) (k : PStr) (v : Bool) (e : PStr × Bool)
    (he : e ∈ d) (hf : e.2 = false) (hcur : dgetD d k true = true) : e ∈ dset d k v := by
  have main : ∀ d' : Dict Bool, e ∈ d' → dgetD d' k true = true → e ∈ dset d' k v := by
    intro d'
    induction d' with
    | nil => intro hh _; exact absurd hh (List.not_mem_nil e)
    | cons kv rest ih =>
      obtain ⟨k₁, v₁⟩ := kv
      intro hh hcur'
      by_cases hk : k₁ = k
      · subst hk
        have hv₁ : v₁ = true := by
          rw [dgetD, dget?] at hcur'
          simpa using hcur'
        simp only [dset, if_pos rfl]
        rcases List.mem_cons.mp hh with h1 | h1
        · have hv₂ : v₁ = false := by rw [h1] at hf; exact hf
          rw [hv₁] at hv₂
          exact absurd hv₂ (by decide)
        · exact List.mem_cons.mpr (Or.inr h1)
      · simp only [dset, hk, if_false]
        rcases List.mem_cons.mp hh with h1 | h1
        · exact List.mem_cons.mpr (Or.inl h1)
        · have hcur'' : dgetD rest k true = true := by
            rw [dgetD, dget?] at hcur'
            rw [if_neg hk] at hcur'
            exact hcur'
          exact List.mem_cons.mpr (Or.inr (ih h1 hcur''))
  exact main d he hcur

theorem augAnc_augAnc (N : PStr) (i j : Nat) (hi : 1 ≤ i) (hj : j ≤ i) :
    augAnc (augAnc N i) j = augAnc N j := by
  unfold augAnc
  rw [pySplit_pyJoin_take '.' N i hi, List.take_take]
  congr 2
  omega

theorem augSegs_augAnc (N : PStr) (i : Nat) (hi : 1 ≤ i) (his : i < augSegs N) :
    augSegs (augAnc N i) = i := by
  unfold augSegs augAnc
  rw [pySplit_pyJoin_take '.' N i hi, List.length_take]
  unfold augSegs at his
  omega

theorem origFalse_anc (m : DepsMap) (N dep : PStr) (i : Nat) (hi : 1 ≤ i)
    (his : i < augSegs N) (h : OrigFalse m (augAnc N i) dep) : OrigFalse m N dep := by
  rcases h with h | ⟨j, hj1, hj2, hj3⟩
  · exact Or.inr ⟨i, hi, his, h⟩
  · rw [augSegs_augAnc N i hi his] at hj2
    rw [augAnc_augAnc N i j hi (le_of_lt hj2)] at hj3
    exact Or.inr ⟨j, hj1, lt_trans hj2 his, hj3⟩

theorem origPres_anc (m : DepsMap) (N dep : PStr) (i : Nat) (hi : 1 ≤ i)
    (his : i < augSegs N) (h : OrigPres m (augAnc N i) dep) : OrigPres m N dep := by
  rcases h with h | ⟨j, hj1, hj2, hj3⟩
  · exact Or.inr ⟨i, hi, his, h⟩
  · rw [augSegs_augAnc N i hi his] at hj2
    rw [augAnc_augAnc N i j hi (le_of_lt hj2)] at hj3
    exact Or.inr ⟨j, hj1, lt_trans hj2 his, hj3⟩

/-- A fold preserves any invariant preserved by each step. -/
theorem foldl_inv {α β : Type} (f : α → β → α) (Inv : α → Prop) :
    ∀ (l : List β) (a : α), Inv a →
      (∀ a' b, Inv a' → b ∈ l → Inv (f a' b)) → Inv (l.foldl f a) := by
  intro l
  induction l with
  | nil => intro a h _; exact h
  | cons b rest ih =>
    intro a h hstep
    rw [List.foldl_cons]
    exact ih (f a b) (hstep a b h (List.mem_cons_self b rest))
      fun a' b' ha' hb' => hstep a' b' ha' (List.mem_cons.mpr (Or.inr hb'))

/-- A fold establishes a property forced by one of its elements under an
invariant, provided the property is preserved afterwards. -/
theorem foldl_establish {α β : Type} (f : α → β → α) (Inv P : α → Prop) (e : β) :
    ∀ (l : List β) (a : α), Inv a → e ∈ l →
      (∀ a' b, Inv a' → b ∈ l → Inv (f a' b)) →
      (∀ a', Inv a' → P (f a' e)) →
      (∀ a' b, P a' → b ∈ l → P (f a' b)) →
      P (l.foldl f a) := by
  intro l
  induction l with
  | nil => intro a _ he; exact absurd he (List.not_mem_nil e)
  | cons b rest ih =>
    intro a hInv he hkeep hforce hpres
    rw [List.foldl_cons]
    by_cases hb : b = e
    · subst hb
      have hP : P (f a b) := hforce a hInv
      exact foldl_inv f P rest (f a b) hP
        fun a' b' ha' hb' => hpres a' b' ha' (List.mem_cons.mpr (Or.inr hb'))
    · rcases List.mem_cons.mp he with hh | hh
      · exact absurd hh.symm hb
      · exact ih (f a b) (hkeep a b hInv (List.mem_cons_self b rest)) hh
          (fun a' b' ha' hb' => hkeep a' b' ha' (List.mem_cons.mpr (Or.inr hb')))
          hforce
          fun a' b' ha' hb' => hpres a' b' ha' (List.mem_cons.mpr (Or.inr hb'))

theorem augDepStep_eq_of_px (modName baseName P : PStr) (st : AugState) (dp : PStr × Bool)
    (h : baseName.isPrefixOf dp.1 = true) :
    augDepStep modName baseName P st dp = st := by
  simp only [augDepStep]
  split
  · rename_i hc
    rw [h] at hc
    exact absurd hc.1 (by decide)
  · rfl

theorem augDepStep_eq_of_cur_false (modName baseName P : PStr) (st : AugState)
    (dp : PStr × Bool)
    (h : dgetD (dgetD st.map modName []) dp.1 true = false) :
    augDepStep modName baseName P st dp = st := by
  simp only [augDepStep]
  split
  · rename_i hc
    rw [h] at hc
    exact absurd hc.2 (by decide)
  · rfl

theorem augDepStep_eq_of_write (modName baseName P : PStr) (st : AugState) (dp : PStr × Bool)
    (hp : baseName.isPrefixOf dp.1 = false)
    (hc : dgetD (dgetD st.map modName []) dp.1 true = true) :
    augDepStep modName baseName P st dp =
      ⟨dset st.map modName (dset (dgetD st.map modName []) dp.1 dp.2),
        pddAdd st.pdd modName P dp.1⟩ := by
  simp only [augDepStep]
  rw [if_pos ⟨by rw [hp]; decide, hc⟩]
  rw [hc, Bool.true_and]

theorem augDepStep_pres_false (N₀ dep₀ modName baseName P : PStr) (st : AugState)
    (dp : PStr × Bool)
    (h : dget? (dgetD st.map N₀ []) dep₀ = some false) :
    dget? (dgetD (augDepStep modName baseName P st dp).map N₀ []) dep₀ = some false := by
  by_cases hp : List.isPrefixOf baseName dp.1 = true
  · rw [augDepStep_eq_of_px _ _ _ _ _ hp]
    exact h
  · rw [Bool.not_eq_true] at hp
    by_cases hcur : dgetD (dgetD st.map modName []) dp.1 true = true
    · rw [augDepStep_eq_of_write _ _ _ _ _ hp hcur]
      by_cases hX : N₀ = modName
      · subst hX
        rw [dgetD_dset_self]
        by_cases hd : dep₀ = dp.1
        · subst hd
          rw [dgetD, h] at hcur
          exact absurd hcur (by decide)
        · rw [dget?_dset_ne _ _ _ _ hd]
          exact h
      · rw [dgetD_dset_ne _ _ _ _ _ hX]
        exact h
    · rw [Bool.not_eq_true] at hcur
      rw [augDepStep_eq_of_cur_false _ _ _ _ _ hcur]
      exact h

theorem augDepStep_pres_mem (N₀ dep₀ modName baseName P : PStr) (st : AugState)
    (dp : PStr × Bool)
    (h : dmem (dgetD st.map N₀ []) dep₀ = true) :
    dmem (dgetD (augDepStep modName baseName P st dp).map N₀ []) dep₀ = true := by
  by_cases hp : List.isPrefixOf baseName dp.1 = true
  · rw [augDepStep_eq_of_px _ _ _ _ _ hp]
    exact h
  · rw [Bool.not_eq_true] at hp
    by_cases hcur : dgetD (dgetD st.map modName []) dp.1 true = true
    · rw [augDepStep_eq_of_write _ _ _ _ _ hp hcur]
      by_cases hX : N₀ = modName
      · subst hX
        rw [dgetD_dset_self]
        by_cases hd : dep₀ = dp.1
        · subst hd
          unfold dmem
          rw [dget?_dset_self]
          rfl
        · unfold dmem
          rw [dget?_dset_ne _ _ _ _ hd]
          exact h
      · rw [dgetD_dset_ne _ _ _ _ _ hX]
        exact h
    · rw [Bool.not_eq_true] at hcur
      rw [augDepStep_eq_of_cur_false _ _ _ _ _ hcur]
      exact h

theorem augDepStep_force_false (modName baseName P : PStr) (st : AugState)
    (dp : PStr × Bool)
    (hf : dp.2 = false) (hp : List.isPrefixOf baseName dp.1 = false) :
    dget? (dgetD (augDepStep modName baseName P st dp).map modName []) dp.1 = some false := by
  by_cases hcur : dgetD (dgetD st.map modName []) dp.1 true = true
  · rw [augDepStep_eq_of_write _ _ _ _ _ hp hcur, dgetD_dset_self, dget?_dset_self, hf]
  · rw [Bool.not_eq_true] at hcur
    rw [augDepStep_eq_of_cur_false _ _ _ _ _ hcur]
    rw [dgetD] at hcur
    cases hq : dget? (dgetD st.map modName []) dp.1 with
    | none =>
      rw [hq] at hcur
      exact absurd hcur (by decide)
    | some b =>
      rw [hq] at hcur
      simp only [Option.getD_some] at hcur
      rw [hcur]

theorem augDepStep_force_mem (modName baseName P : PStr) (st : AugState)
    (dp : PStr × Bool)
    (hp : List.isPrefixOf baseName dp.1 = false) :
    dmem (dgetD (augDepStep modName baseName P st dp).map modName []) dp.1 = true := by
  by_cases hcur : dgetD (dgetD st.map modName []) dp.1 true = true
  · rw [augDepStep_eq_of_write _ _ _ _ _ hp hcur, dgetD_dset_self]
    unfold dmem
    rw [dget?_dset_self]
    rfl
  · rw [Bool.not_eq_true] at hcur
    rw [augDepStep_eq_of_cur_false _ _ _ _ _ hcur]
    rw [dgetD] at hcur
    cases hq : dget? (dgetD st.map modName []) dp.1 with
    | none =>
      rw [hq] at hcur
      exact absurd hcur (by decide)
    | some b =>
      unfold dmem
      rw [hq]
      rfl

theorem augDepStep_inv (m : DepsMap) (modName baseName P : PStr) (st : AugState)
    (dp : PStr × Bool) (hInv : AugInv m st.map) (hN : modName ∈ dkeys m)
    (i : Nat) (hi1 : 1 ≤ i) (hi2 : i < augSegs modName) (hP : P = augAnc modName i)
    (hdpF : dp.2 = false → OrigFalse m P dp.1)
    (hdpP : OrigPres m P dp.1) :
    AugInv m (augDepStep modName baseName P st dp).map := by
  obtain ⟨h1, h2, h3, h4, h5⟩ := hInv
  by_cases hp : List.isPrefixOf baseName dp.1 = true
  · rw [augDepStep_eq_of_px _ _ _ _ _ hp]
    exact ⟨h1, h2, h3, h4, h5⟩
  · rw [Bool.not_eq_true] at hp
    by_cases hcur : dgetD (dgetD st.map modName []) dp.1 true = true
    · rw [augDepStep_eq_of_write _ _ _ _ _ hp hcur]
      have hmem : dmem st.map modName = true := by
        rw [dmem_iff_mem_dkeys, h1]
        exact hN
      refine ⟨?_, ?_, ?_, ?_, ?_⟩
      · rw [dkeys_dset_of_mem _ _ _ hmem]
        exact h1
      · intro X dep hx
        by_cases hX : X = modName
        · subst hX
          rw [dgetD_dset_self]
          by_cases hd : dep = dp.1
          · subst hd
            unfold dmem
            rw [dget?_dset_self]
            rfl
          · unfold dmem
            rw [dget?_dset_ne _ _ _ _ hd]
            exact h2 X dep hx
        · rw [dgetD_dset_ne _ _ _ _ _ hX]
          exact h2 X dep hx
      · intro X dp' hx hf'
        by_cases hX : X = modName
        · subst hX
          rw [dgetD_dset_self]
          exact mem_dset_of_false _ _ _ _ (h3 X dp' hx hf') hf' hcur
        · rw [dgetD_dset_ne _ _ _ _ _ hX]
          exact h3 X dp' hx hf'
      · intro X dp' hx hf'
        by_cases hX : X = modName
        · subst hX
          rw [dgetD_dset_self] at hx
          rcases mem_dset_cases _ _ _ _ hx with hh | hh
          · exact h4 X dp' hh hf'
          · have hd1 : dp'.1 = dp.1 := by rw [hh]
            have hd2 : dp.2 = false := by
              rw [hh] at hf'
              exact hf'
            rw [hd1]
            subst hP
            exact origFalse_anc m X dp.1 i hi1 hi2 (hdpF hd2)
        · rw [dgetD_dset_ne _ _ _ _ _ hX] at hx
          exact h4 X dp' hx hf'
      · intro X dep hx
        by_cases hX : X = modName
        · subst hX
          rw [dgetD_dset_self] at hx
          by_cases hd : dep = dp.1
          · subst hd hP
            exact origPres_anc m X dp.1 i hi1 hi2 hdpP
          · unfold dmem at hx
            rw [dget?_dset_ne _ _ _ _ hd] at hx
            exact h5 X dep hx
        · rw [dgetD_dset_ne _ _ _ _ _ hX] at hx
          exact h5 X dep hx
    · rw [Bool.not_eq_true] at hcur
      rw [augDepStep_eq_of_cur_false _ _ _ _ _ hcur]
      exact ⟨h1, h2, h3, h4, h5⟩

theorem augParentStep_inv (m : DepsMap) (modName baseName : PStr) (st : AugState) (i : Nat)
    (hInv : AugInv m st.map) (hN : modName ∈ dkeys m)
    (hi1 : 1 ≤ i) (hi2 : i < augSegs modName) :
    AugInv m (augParentStep modName baseName st i).map := by
  simp only [augParentStep]
  refine foldl_inv _ (fun st' => AugInv m st'.map) _ st hInv ?_
  intro st' dp hInv' hdp
  refine augDepStep_inv m modName baseName _ st' dp hInv' hN i hi1 hi2 rfl ?_ ?_
  · intro hf
    exact hInv.2.2.2.1 _ dp hdp hf
  · exact hInv.2.2.2.2 _ dp.1 (dmem_of_mem_entry _ dp hdp)

theorem augParentStep_pres_false (N₀ dep₀ modName baseName : PStr) (st : AugState) (i : Nat)
    (h : dget? (dgetD st.map N₀ []) dep₀ = some false) :
    dget? (dgetD (augParentStep modName baseName st i).map N₀ []) dep₀ = some false := by
  simp only [augParentStep]
  refine foldl_inv _ (fun st' => dget? (dgetD st'.map N₀ []) dep₀ = some false) _ st h ?_
  intro st' dp h' _
  exact augDepStep_pres_false N₀ dep₀ modName baseName _ st' dp h'

theorem augParentStep_pres_mem (N₀ dep₀ modName baseName : PStr) (st : AugState) (i : Nat)
    (h : dmem (dgetD st.map N₀ []) dep₀ = true) :
    dmem (dgetD (augParentStep modName baseName st i).map N₀ []) dep₀ = true := by
  simp only [augParentStep]
  refine foldl_inv _ (fun st' => dmem (dgetD st'.map N₀ []) dep₀ = true) _ st h ?_
  intro st' dp h' _
  exact augDepStep_pres_mem N₀ dep₀ modName baseName _ st' dp h'

theorem augParentStep_force_false (m : DepsMap) (modName baseName : PStr) (st : AugState)
    (i : Nat) (dep : PStr)
    (hInv : AugInv m st.map)
    (hdep : ((dep, false) : PStr × Bool) ∈ dgetD m (augAnc modName i) [])
    (hp : List.isPrefixOf baseName dep = false) :
    dget? (dgetD (augParentStep modName baseName st i).map modName []) dep = some false := by
  simp only [augParentStep]
  have hmem : ((dep, false) : PStr × Bool) ∈
      dgetD st.map (pyJoin '.' ((pySplit '.' modName).take i)) [] :=
    hInv.2.2.1 _ (dep, false) hdep rfl
  refine foldl_establish _ (fun _ => True)
    (fun st' => dget? (dgetD st'.map modName []) dep = some false)
    ((dep, false)) _ st trivial hmem (fun _ _ _ _ => trivial) ?_ ?_
  · intro st' _
    exact augDepStep_force_false modName baseName _ st' (dep, false) rfl hp
  · intro st' dp h' _
    exact augDepStep_pres_false modName dep modName baseName _ st' dp h'

theorem augParentStep_force_mem (m : DepsMap) (modName baseName : PStr) (st : AugState)
    (i : Nat) (dep : PStr)
    (hInv : AugInv m st.map)
    (hdep : dmem (dgetD m (augAnc modName i) []) dep = true)
    (hp : List.isPrefixOf baseName dep = false) :
    dmem (dgetD (augParentStep modName baseName st i).map modName []) dep = true := by
  simp only [augParentStep]
  have hcur : dmem (dgetD st.map (pyJoin '.' ((pySplit '.' modName).take i)) []) dep = true :=
    hInv.2.1 _ dep hdep
  unfold dmem at hcur
  cases hq : dget? (dgetD st.map (pyJoin '.' ((pySplit '.' modName).take i)) []) dep with
  | none =>
    rw [hq] at hcur
    exact absurd hcur (by decide)
  | some b =>
    have hmem := mem_of_dget?_eq_some _ _ _ hq
    refine foldl_establish _ (fun _ => True)
      (fun st' => dmem (dgetD st'.map modName []) dep = true)
      ((dep, b)) _ st trivial hmem (fun _ _ _ _ => trivial) ?_ ?_
    · intro st' _
      exact augDepStep_force_mem modName baseName _ st' (dep, b) hp
    · intro st' dp h' _
      exact augDepStep_pres_mem modName dep modName baseName _ st' dp h'

theorem augModStep_inv (m : DepsMap) (st : AugState) (N : PStr)
    (hInv : AugInv m st.map) (hN : N ∈ dkeys m) :
    AugInv m (augModStep st N).map := by
  simp only [augModStep]
  refine foldl_inv _ (fun st' => AugInv m st'.map) _ st hInv ?_
  intro st' i hInv' hi
  rw [List.mem_range'_1] at hi
  exact augParentStep_inv m N _ st' i hInv' hN hi.1 (by unfold augSegs; omega)

theorem augModStep_pres_false (N₀ dep₀ : PStr) (st : AugState) (N : PStr)
    (h : dget? (dgetD st.map N₀ []) dep₀ = some false) :
    dget? (dgetD (augModStep st N).map N₀ []) dep₀ = some false := by
  simp only [augModStep]
  refine foldl_inv _ (fun st' => dget? (dgetD st'.map N₀ []) dep₀ = some false) _ st h ?_
  intro st' i h' _
  exact augParentStep_pres_false N₀ dep₀ N _ st' i h'

theorem augModStep_pres_mem (N₀ dep₀ : PStr) (st : AugState) (N : PStr)
    (h : dmem (dgetD st.map N₀ []) dep₀ = true) :
    dmem (dgetD (augModStep st N).map N₀ []) dep₀ = true := by
  simp only [augModStep]
  refine foldl_inv _ (fun st' => dmem (dgetD st'.map N₀ []) dep₀ = true) _ st h ?_
  intro st' i h' _
  exact augParentStep_pres_mem N₀ dep₀ N _ st' i h'

theorem augModStep_force_false (m : DepsMap) (st : AugState) (N : PStr) (j : Nat) (dep : PStr)
    (hInv : AugInv m st.map) (hN : N ∈ dkeys m)
    (hj1 : 1 ≤ j) (hj2 : j < augSegs N)
    (hdep : ((dep, false) : PStr × Bool) ∈ dgetD m (augAnc N j) [])
    (hp : List.isPrefixOf (pyPartFst '.' N) dep = false) :
    dget? (dgetD (augModStep st N).map N []) dep = some false := by
  simp only [augModStep]
  have hjmem : j ∈ List.range' 1 ((pySplit '.' N).length - 1) := by
    rw [List.mem_range'_1]
    unfold augSegs at hj2
    omega
  refine foldl_establish _ (fun st' => AugInv m st'.map)
    (fun st' => dget? (dgetD st'.map N []) dep = some false) j _ st hInv hjmem ?_ ?_ ?_
  · intro st' i hInv' hi
    rw [List.mem_range'_1] at hi
    exact augParentStep_inv m N _ st' i hInv' hN hi.1 (by unfold augSegs; omega)
  · intro st' hInv'
    exact augParentStep_force_false m N _ st' j dep hInv' hdep hp
  · intro st' i h' _
    exact augParentStep_pres_false N dep N _ st' i h'

theorem augModStep_force_mem (m : DepsMap) (st : AugState) (N : PStr) (j : Nat) (dep : PStr)
    (hInv : AugInv m st.map) (hN : N ∈ dkeys m)
    (hj1 : 1 ≤ j) (hj2 : j < augSegs N)
    (hdep : dmem (dgetD m (augAnc N j) []) dep = true)
    (hp : List.isPrefixOf (pyPartFst '.' N) dep = false) :
    dmem (dgetD (augModStep st N).map N []) dep = true := by
  simp only [augModStep]
  have hjmem : j ∈ List.range' 1 ((pySplit '.' N).length - 1) := by
    rw [List.mem_range'_1]
    unfold augSegs at hj2
    omega
  refine foldl_establish _ (fun st' => AugInv m st'.map)
    (fun st' => dmem (dgetD st'.map N []) dep = true) j _ st hInv hjmem ?_ ?_ ?_
  · intro st' i hInv' hi
    rw [List.mem_range'_1] at hi
    exact augParentStep_inv m N _ st' i hInv' hN hi.1 (by unfold augSegs; omega)
  · intro st' hInv'
    exact augParentStep_force_mem m N _ st' j dep hInv' hdep hp
  · intro st' i h' _
    exact augParentStep_pres_mem N dep N _ st' i h'

theorem augInv_init (m : DepsMap) : AugInv m m := by
  refine ⟨rfl, fun X dep h => h, fun X dp h _ => h, ?_, ?_⟩
  · intro X dp h hf
    refine Or.inl ?_
    have hdp : ((dp.1, false) : PStr × Bool) = dp := by rw [← hf]
    rw [hdp]
    exact h
  · intro X dep h
    exact Or.inl h

theorem findParentDirectDeps_inv (m : DepsMap) : AugInv m (findParentDirectDeps m).map := by
  unfold findParentDirectDeps
  refine foldl_inv _ (fun (st : AugState) => AugInv m st.map) _ (⟨m, []⟩ : AugState) (augInv_init m) ?_
  intro st N hInv hN
  exact augModStep_inv m st N hInv hN

theorem findParentDirectDeps_stable (m : DepsMap) :
    ∀ N ∈ dkeys m, ∀ i, 1 ≤ i → i < augSegs N →
    ∀ dp ∈ dgetD (findParentDirectDeps m).map (augAnc N i) [],
      List.isPrefixOf (pyPartFst '.' N) dp.1 = false →
      dmem (dgetD (findParentDirectDeps m).map N []) dp.1 = true ∧
      (dget? (dgetD (findParentDirectDeps m).map N []) dp.1 = some true → dp.2 = true) := by
  intro N hN i hi1 hi2 dp hdp hpre
  have hInvM := findParentDirectDeps_inv m
  have hpres : OrigPres m (augAnc N i) dp.1 :=
    hInvM.2.2.2.2 _ dp.1 (dmem_of_mem_entry _ dp hdp)
  have hpres' : ∃ j, 1 ≤ j ∧ j < augSegs N ∧ dmem (dgetD m (augAnc N j) []) dp.1 = true := by
    rcases hpres with h | ⟨j, hj1, hj2, hj3⟩
    · exact ⟨i, hi1, hi2, h⟩
    · rw [augSegs_augAnc N i hi1 hi2] at hj2
      rw [augAnc_augAnc N i j hi1 (le_of_lt hj2)] at hj3
      exact ⟨j, hj1, lt_trans hj2 hi2, hj3⟩
  obtain ⟨j, hj1, hj2, hj3⟩ := hpres'
  constructor
  · unfold findParentDirectDeps
    refine foldl_establish _ (fun (st : AugState) => AugInv m st.map)
      (fun (st : AugState) => dmem (dgetD st.map N []) dp.1 = true) N _
      (⟨m, []⟩ : AugState) (augInv_init m) hN ?_ ?_ ?_
    · intro st b hInv hb
      exact augModStep_inv m st b hInv hb
    · intro st hInv
      exact augModStep_force_mem m st N j dp.1 hInv hN hj1 hj2 hj3 hpre
    · intro st b h _
      exact augModStep_pres_mem N dp.1 st b h
  · intro hT
    by_cases hf : dp.2 = true
    · exact hf
    · exfalso
      rw [Bool.not_eq_true] at hf
      have hofalse : OrigFalse m (augAnc N i) dp.1 := hInvM.2.2.2.1 _ dp hdp hf
      have hofalse' : ∃ j', 1 ≤ j' ∧ j' < augSegs N ∧
          ((dp.1, false) : PStr × Bool) ∈ dgetD m (augAnc N j') [] := by
        rcases hofalse with h | ⟨j', hj1', hj2', hj3'⟩
        · exact ⟨i, hi1, hi2, h⟩
        · rw [augSegs_augAnc N i hi1 hi2] at hj2'
          rw [augAnc_augAnc N i j' hi1 (le_of_lt hj2')] at hj3'
          exact ⟨j', hj1', lt_trans hj2' hi2, hj3'⟩
      obtain ⟨j', hj1', hj2', hj3'⟩ := hofalse'
      have hff : dget? (dgetD (findParentDirectDeps m).map N []) dp.1 = some false := by
        unfold findParentDirectDeps
        refine foldl_establish _ (fun (st : AugState) => AugInv m st.map)
          (fun (st : AugState) => dget? (dgetD st.map N []) dp.1 = some false) N _
          (⟨m, []⟩ : AugState) (augInv_init m) hN ?_ ?_ ?_
        · intro st b hInv hb
          exact augModStep_inv m st b hInv hb
        · intro st hInv
          exact augModStep_force_false m st N j' dp.1 hInv hN hj1' hj2' hj3' hpre
        · intro st b h _
          exact augModStep_pres_false N dp.1 st b h
      rw [hff] at hT
      exact absurd (Option.some.inj hT) (by decide)

theorem augStable_fixed (M : DepsMap)
    (hstab : ∀ N ∈ dkeys M, ∀ i, 1 ≤ i → i < augSegs N →
      ∀ dp ∈ dgetD M (augAnc N i) [],
        List.isPrefixOf (pyPartFst '.' N) dp.1 = false →
        dmem (dgetD M N []) dp.1 = true ∧
        (dget? (dgetD M N []) dp.1 = some true → dp.2 = true)) :
    (findParentDirectDeps M).map = M := by
  unfold findParentDirectDeps
  refine foldl_inv _ (fun (st : AugState) => st.map = M) _ (⟨M, []⟩ : AugState) rfl ?_
  intro st N hst hN
  simp only [augModStep]
  refine foldl_inv _ (fun (st' : AugState) => st'.map = M) _ st hst ?_
  intro st' i hst' hi
  rw [List.mem_range'_1] at hi
  simp only [augParentStep]
  rw [hst']
  refine foldl_inv _ (fun (st'' : AugState) => st''.map = M) _ st' hst' ?_
  intro st'' dp hst'' hdp
  have hi2 : i < augSegs N := by unfold augSegs; omega
  by_cases hpx : List.isPrefixOf (pyPartFst '.' N) dp.1 = true
  · rw [augDepStep_eq_of_px _ _ _ _ _ hpx]
    exact hst''
  · rw [Bool.not_eq_true] at hpx
    obtain ⟨hmem, himpl⟩ := hstab N hN i hi.1 hi2 dp hdp hpx
    unfold dmem at hmem
    cases hq : dget? (dgetD M N []) dp.1 with
    | none =>
      rw [hq] at hmem
      exact absurd hmem (by decide)
    | some v =>
      cases v with
      | false =>
        have hcurf : dgetD (dgetD st''.map N []) dp.1 true = false := by
          rw [hst'', dgetD, hq]
          rfl
        rw [augDepStep_eq_of_cur_false _ _ _ _ _ hcurf]
        exact hst''
      | true =>
        have hdp2 : dp.2 = true := himpl hq
        have hcurt : dgetD (dgetD st''.map N []) dp.1 true = true := by
          rw [hst'', dgetD, hq]
          rfl
        rw [augDepStep_eq_of_write _ _ _ _ _ hpx hcurt]
        show dset st''.map N (dset (dgetD st''.map N []) dp.1 dp.2) = M
        rw [hst'', hdp2]
        rw [dset_eq_of_dget? _ _ _ hq]
        have hNmem : dmem M N = true := (dmem_iff_mem_dkeys M N).mpr hN
        unfold dmem at hNmem
        cases hQ : dget? M N with
        | none =>
          rw [hQ] at hNmem
          exact absurd hNmem (by decide)
        | some row =>
          have hrow : dgetD M N [] = row := by
            rw [dgetD, hQ]
            rfl
          rw [hrow]
          exact dset_eq_of_dget? M N row hQ

/-- Claim C8 (amended): the parent-direct-dep augmentation is idempotent
on the module-deps map — re-running `_find_parent_direct_deps` on an
augmented map leaves the map unchanged — but the `parent_direct_deps`
mapping of the second run is not the mapping of the first run (see the
counterexample below): entries recorded because a dep was newly copied
down are not re-recorded once the dep is present and non-optional. -/
theorem find_parent_direct_deps_map_idempotent (m : DepsMap) :
    (findParentDirectDeps (findParentDirectDeps m).map).map = (findParentDirectDeps m).map := by
  apply augStable_fixed
  intro N hN i hi1 hi2 dp hdp hpre
  have hkeys : dkeys (findParentDirectDeps m).map = dkeys m := (findParentDirectDeps_inv m).1
  rw [hkeys] at hN
  exact findParentDirectDeps_stable m N hN i hi1 hi2 dp hdp hpre

/-- Counterexample to claim C8 as stated: on a map where `x` has an
optional dep `r` and `x.y` has none, the first augmentation records
`x.y -> {x -> {r}}` in `parent_direct_deps` while the second run records
nothing (the copied dep is now present and non-optional), so the second
application does not reproduce the first mapping. -/
theorem find_parent_direct_deps_pdd_not_idempotent :
    (findParentDirectDeps (findParentDirectDeps
        [(pstr "x", [(pstr "r", false)]), (pstr "x.y", [])]).map).pdd ≠
      (findParentDirectDeps [(pstr "x", [(pstr "r", false)]), (pstr "x.y", [])]).pdd := by
  decide

end AugIdempotence
